import Mathlib

/-!
Verification of the csv-metadata-tool metadata-generation pipeline.

JavaScript strings are modelled as `List Char` (`Str`).  Each definition in
the first part of this file is a direct translation of a function of
`src/src/App.tsx`; the ASCII case-mapping tables model the behaviour of
JavaScript `toLowerCase`/`toUpperCase` on the character ranges the
application manipulates.
-/

set_option maxRecDepth 4096

abbrev Str := List Char

/-- JavaScript whitespace class `\s` (ASCII part). -/
def isWsChar (c : Char) : Bool :=
  c = ' ' || c = '\t' || c = '\n' || c = '\r' || c = '\x0b' || c = '\x0c'

/-- JS `String.prototype.trim`: drop whitespace at both ends. -/
def jsTrim (s : Str) : Str :=
  ((s.dropWhile isWsChar).reverse.dropWhile isWsChar).reverse

/-- Upper-to-lower case table, modelling JS `toLowerCase` on ASCII letters. -/
def lowerPairs : List (Char × Char) :=
  [('A', 'a'), ('B', 'b'), ('C', 'c'), ('D', 'd'), ('E', 'e'), ('F', 'f'),
   ('G', 'g'), ('H', 'h'), ('I', 'i'), ('J', 'j'), ('K', 'k'), ('L', 'l'),
   ('M', 'm'), ('N', 'n'), ('O', 'o'), ('P', 'p'), ('Q', 'q'), ('R', 'r'),
   ('S', 's'), ('T', 't'), ('U', 'u'), ('V', 'v'), ('W', 'w'), ('X', 'x'),
   ('Y', 'y'), ('Z', 'z')]

def lowerChar (c : Char) : Char :=
  ((lowerPairs.find? (fun p => p.1 == c)).map Prod.snd).getD c

def upperChar (c : Char) : Char :=
  (((lowerPairs.map (fun p => (p.2, p.1))).find? (fun p => p.1 == c)).map Prod.snd).getD c

/-- JS `String.prototype.toLowerCase` (ASCII model). -/
def jsToLower (s : Str) : Str := s.map lowerChar

/-- Split a string at every character of `seps`; like JS `split(regexp)` with a
single-character class, empty pieces are kept. -/
def splitAnyOf (seps : List Char) : Str → List Str
  | [] => [[]]
  | c :: cs =>
    let r := splitAnyOf seps cs
    if c ∈ seps then [] :: r else (c :: r.headD []) :: r.tail

/-- JS `split(',')`. -/
def splitChar (sep : Char) : Str → List Str := splitAnyOf [sep]

/-- JS `Array.prototype.join(sep)`. -/
def joinSep (sep : Str) : List Str → Str
  | [] => []
  | [t] => t
  | t :: ts => t ++ sep ++ joinSep sep ts

/-- The `Set`-based first-occurrence duplicate-removal loop used throughout
`App.tsx` (`seen` plays the role of the JS `Set`). -/
def dedupGo (seen : List Str) : List Str → List Str
  | [] => []
  | t :: ts => if t ∈ seen then dedupGo seen ts else t :: dedupGo (t :: seen) ts

/-- JS `t.split(/\s+/)[0]` for a token `t`: its first whitespace-delimited
word (empty when `t` is empty or starts with whitespace). -/
def firstWordJs (t : Str) : Str :=
  match t with
  | [] => []
  | c :: _ => if isWsChar c then [] else t.takeWhile (fun c2 => !isWsChar c2)

/-- Separator class of `autoCleanKeywords`: `/[,;\n]/`. -/
def sepChars : List Char := [',', ';', '\n']

/-- Token list computed inside `autoCleanKeywords` (App.tsx lines 48-76):
append the bulk extra with a comma, lowercase, split on `,`/`;`/newline,
trim, drop empties, keep each token's first word, drop empties, and
optionally remove duplicates keeping the first occurrence. -/
def acTokens (raw : Str) (autoRemoveDupKeywords : Bool) (bulkKeywordExtra : Str) : List Str :=
  let base := raw ++ (if bulkKeywordExtra.isEmpty then [] else ',' :: bulkKeywordExtra)
  let pieces := (((splitAnyOf sepChars (jsToLower base)).map jsTrim).filter
      (fun t => !t.isEmpty)).map firstWordJs
  let tokens := pieces.filter (fun t => !t.isEmpty)
  if autoRemoveDupKeywords then dedupGo [] tokens else tokens

/-- `autoCleanKeywords` of App.tsx (lines 48-77): the cleaned token list
joined with a comma and a space. -/
def autoCleanKeywords (raw : Str) (autoRemoveDupKeywords : Bool) (bulkKeywordExtra : Str) : Str :=
  joinSep (", ".toList) (acTokens raw autoRemoveDupKeywords bulkKeywordExtra)

/-- The fixed filler vocabulary of `buildKeywords` (App.tsx lines 126-151). -/
def fillerPool : List Str :=
  ["vector", "illustration", "design", "art", "graphic", "symbol", "icon",
   "minimal", "modern", "abstract", "background", "template", "creative",
   "digital", "silhouette", "pattern", "shape", "line", "curve", "poster",
   "print", "stock", "commercial", "concept"].map String.toList

/-- The padding loop of `buildKeywords` (App.tsx lines 153-158): append pool
words not already present until the list reaches `targetCount`. -/
def fillerLoop (combined : List Str) (targetCount : Nat) : List Str → List Str
  | [] => combined
  | w :: ws =>
    if combined.length ≥ targetCount then combined
    else if w ∈ combined then fillerLoop combined targetCount ws
    else fillerLoop (combined ++ [w]) targetCount ws

/-- Split-trim-drop-empties applied to a `autoCleanKeywords` result, as done
twice inside `buildKeywords` (App.tsx lines 87-103). -/
def reTokens (s : Str) : List Str :=
  ((splitChar ',' s).map jsTrim).filter (fun t => !t.isEmpty)

/-- The token list `buildKeywords` joins at its last line (App.tsx lines
80-160): clean base+bulk together, re-clean bulk alone (the JS truthiness
guard `bulkKeywordText && bulkKeywordText.trim()`), put the bulk tokens
first (deduplicated with the JS `Set` loop), pad with the filler pool, and
truncate to `targetCount`. -/
def buildKeywordsList (baseKeywords : Str) (bulkKeywordText : Str)
    (autoRemoveDupKeywords : Bool) (targetCount : Nat) : List Str :=
  let combined0 := reTokens (autoCleanKeywords baseKeywords autoRemoveDupKeywords bulkKeywordText)
  let bulkTokens :=
    if bulkKeywordText ≠ [] ∧ jsTrim bulkKeywordText ≠ [] then
      reTokens (autoCleanKeywords bulkKeywordText autoRemoveDupKeywords [])
    else []
  let combined := if bulkTokens.isEmpty then combined0 else dedupGo [] (bulkTokens ++ combined0)
  (fillerLoop combined targetCount fillerPool).take targetCount

/-- `buildKeywords` of App.tsx (lines 80-161): the truncated token list,
joined with a comma and a space. -/
def buildKeywords (baseKeywords : Str) (bulkKeywordText : Str)
    (autoRemoveDupKeywords : Bool) (targetCount : Nat) : Str :=
  joinSep (", ".toList)
    (buildKeywordsList baseKeywords bulkKeywordText autoRemoveDupKeywords targetCount)

/-- Splitting on the two-character separator of the joined keyword output,
as the specification's token count does (split on a comma and a space). -/
def splitCommaSpace : Str → List Str
  | [] => [[]]
  | ',' :: ' ' :: cs => [] :: splitCommaSpace cs
  | c :: cs =>
    let r := splitCommaSpace cs
    (c :: r.headD []) :: r.tail

/-- The character class stripped by `normalizeTitle` (App.tsx line 24); every
occurrence is replaced by a space. -/
def stripChars : List Char :=
  "0123456789#_=+*\x7b\x7d[];:<>/\\|~`\"“”\x27’.,!?()-".toList

/-- JS `replace(/\s+/g, ' ')`: every maximal whitespace run becomes one space. -/
def collapseWs : Str → Str
  | [] => []
  | [c] => if isWsChar c then [' '] else [c]
  | c1 :: c2 :: cs =>
    if isWsChar c1 && isWsChar c2 then collapseWs (c2 :: cs)
    else (if isWsChar c1 then ' ' else c1) :: collapseWs (c2 :: cs)

/-- The word-deduplication loop of `normalizeTitle` (App.tsx lines 35-41),
which also skips empty words. -/
def dedupWordsGo (seen : List Str) : List Str → List Str
  | [] => []
  | w :: ws =>
    if w.isEmpty then dedupWordsGo seen ws
    else if w ∈ seen then dedupWordsGo seen ws
    else w :: dedupWordsGo (w :: seen) ws

/-- JS `s.charAt(0).toUpperCase() + s.slice(1)`. -/
def capitalizeFirst : Str → Str
  | [] => []
  | c :: cs => upperChar c :: cs

/-- `normalizeTitle` of App.tsx (lines 22-45). -/
def normalizeTitle (raw : Str) : Str :=
  let text := jsToLower (jsTrim (collapseWs (raw.map (fun c => if c ∈ stripChars then ' ' else c))))
  if text.isEmpty then []
  else capitalizeFirst (joinSep [' '] (dedupWordsGo [] (splitChar ' ' text)))

/-- Errors `generateMetadataWithGemini` can throw beyond the per-call error
`E` of the AI client: the no-keys-configured error and the all-keys-failed
fallback; `under e` is the rethrown last underlying error. -/
inductive RotErr (E : Type) where
  | noKeys
  | allFailed
  | under (e : E)
deriving DecidableEq

/-- The validated and post-processed result of one successful AI call: the
fields `callGeminiWithKey` returns (its `status: success` is applied by the
orchestrator model below). -/
structure GenMeta where
  title : Str
  keywords : Str
  description : Str
deriving DecidableEq

/-- The credential loop of `generateMetadataWithGemini` (App.tsx lines
579-598): try each key in order, return the first success, remember the last
error; the first component records the keys actually called, in order. -/
def rotateGo {E M : Type} (call : Str → Except E M) :
    List Str → Option E → List Str × Except (RotErr E) M
  | [], none => ([], Except.error RotErr.allFailed)
  | [], some e => ([], Except.error (RotErr.under e))
  | k :: ks, _ =>
    match call k with
    | Except.ok m => ([k], Except.ok m)
    | Except.error e =>
      let r := rotateGo call ks (some e)
      (k :: r.1, r.2)

/-- `generateMetadataWithGemini` of App.tsx (lines 571-599), with the AI
client (`callGeminiWithKey` applied to a fixed item) abstracted as `call`.
The first component is the list of keys with which the client was called. -/
def generateMetadataWithGemini {E M : Type} (call : Str → Except E M) (apiKeys : List Str) :
    List Str × Except (RotErr E) M :=
  let keys := (apiKeys.map jsTrim).filter (fun kk => !kk.isEmpty)
  if keys.isEmpty then ([], Except.error RotErr.noKeys)
  else rotateGo call keys none

inductive FileStatus where
  | pending
  | generating
  | success
  | failed
deriving DecidableEq

/-- `FileItem` of App.tsx (lines 10-19); `name` stands for `file.name` and
the preview handle is omitted. A missing `error` is the empty string. -/
structure FileItem where
  id : Str
  name : Str
  title : Str
  keywords : Str
  description : Str
  status : FileStatus
  error : Str
deriving DecidableEq

/-- The component state touched by the batch run: the file collection and
the two counters. -/
structure AppState where
  files : List FileItem
  generatedCount : Nat
  failedCount : Nat
deriving DecidableEq

def isTerminal : FileStatus → Bool
  | FileStatus.success => true
  | FileStatus.failed => true
  | _ => false

def isPendingOrFailed : FileStatus → Bool
  | FileStatus.pending => true
  | FileStatus.failed => true
  | _ => false

/-- A `setFiles(prev => prev.map(f => f.id === id ? changed : f))` update. -/
def setItem (id : Str) (g : FileItem → FileItem) (files : List FileItem) : List FileItem :=
  files.map (fun f => if f.id = id then g f else f)

/-- `generateForItem` of App.tsx (lines 602-628): mark the item generating,
look it up in the render-time snapshot (the stale `files` closure), run the
rotation (abstracted as `gen`), then commit success fields or the generic
failure marker and bump the matching counter. -/
def generateForItem (gen : FileItem → Except Str GenMeta) (snapshot : List FileItem)
    (id : Str) (s : AppState) : AppState :=
  let s1 : AppState :=
    { s with files := setItem id (fun f => { f with status := FileStatus.generating, error := [] }) s.files }
  match snapshot.find? (fun f => f.id == id) with
  | none => s1
  | some current =>
    match gen current with
    | Except.ok m =>
      { s1 with
        files := setItem id (fun f =>
          { f with title := m.title, keywords := m.keywords,
                   description := m.description, status := FileStatus.success }) s1.files,
        generatedCount := s1.generatedCount + 1 }
    | Except.error _ =>
      { s1 with
        files := setItem id (fun f =>
          { f with status := FileStatus.failed, error := "Generation failed".toList }) s1.files,
        failedCount := s1.failedCount + 1 }

/-- The `stopRequestedRef` poll before queue entry `i`: the flag is set from
entry `stopIdx` on (`none` means stop is never requested). -/
def stopAt (stopIdx : Option Nat) (i : Nat) : Bool :=
  match stopIdx with
  | none => false
  | some k => k ≤ i

/-- The sequential loop of `handleGenerateAll` (App.tsx lines 660-668):
check the stop flag, let `added i` model files appended by the user before
entry `i` is processed, then process the entry. The boolean result is
`stoppedByUser`. -/
def runQueue (gen : FileItem → Except Str GenMeta) (snapshot : List FileItem)
    (added : Nat → List FileItem) (stopIdx : Option Nat) :
    List FileItem → Nat → AppState → AppState × Bool
  | [], _, s => (s, false)
  | it :: rest, i, s =>
    if stopAt stopIdx i then (s, true)
    else
      let s1 : AppState := { s with files := s.files ++ added i }
      let s2 := generateForItem gen snapshot it.id s1
      runQueue gen snapshot added stopIdx rest (i + 1) s2

/-- The work-queue snapshot (App.tsx line 657). -/
def pendingQueue (files : List FileItem) : List FileItem :=
  files.filter (fun f => isPendingOrFailed f.status)

/-- `handleGenerateAll` of App.tsx (lines 631-677), modelling a fresh start
(the click-while-running stop branch is the `stopIdx` schedule): reject when
no key is configured, reset the counters, snapshot the pending/failed queue
and run it sequentially. -/
def handleGenerateAll (gen : FileItem → Except Str GenMeta) (apiKeys : List Str)
    (added : Nat → List FileItem) (stopIdx : Option Nat) (s : AppState) : AppState × Bool :=
  let hasKey := apiKeys.any (fun kk => !(jsTrim kk).isEmpty)
  if !hasKey then (s, false)
  else
    let s0 : AppState := { s with generatedCount := 0, failedCount := 0 }
    runQueue gen s0.files added stopIdx (pendingQueue s0.files) 0 s0

/-- The number of queue entries the loop processes when the queue has `len`
entries, processing starts at index `i`, and the stop flag first reads true
at index `stopIdx`. -/
def procCount (stopIdx : Option Nat) (i : Nat) (len : Nat) : Nat :=
  match stopIdx with
  | none => len
  | some k => min len (k - i)

/-- JS `replace(/"/g, '""')` of `buildCsv`. -/
def escQuote : Str → Str
  | [] => []
  | '"' :: cs => '"' :: '"' :: escQuote cs
  | c :: cs => c :: escQuote cs

/-- JS `replace(/\r?\n/g, ' ')` of `buildCsv`. -/
def nlToSpace : Str → Str
  | [] => []
  | '\r' :: '\n' :: cs => ' ' :: nlToSpace cs
  | '\n' :: cs => ' ' :: nlToSpace cs
  | c :: cs => c :: nlToSpace cs

/-- One quoted CSV field of `buildCsv` (App.tsx lines 704-708). -/
def csvField (v : Str) : Str := '"' :: (nlToSpace (escQuote v) ++ ['"'])

/-- One CSV line of `buildCsv`: quoted fields joined with commas. -/
def csvLine (r : List Str) : Str := joinSep [','] (r.map csvField)

def csvHeader : List Str :=
  ["filename", "title", "keywords", "description", "platform"].map String.toList

/-- The field tuple `buildCsv` emits for one item (App.tsx lines 694-700). -/
def rowOf (platform : Str) (f : FileItem) : List Str :=
  [f.name, f.title, f.keywords, f.description, platform]

/-- `buildCsv` of App.tsx (lines 692-713): header plus one row per item,
CRLF-separated, with a trailing CRLF. -/
def buildCsv (platform : Str) (items : List FileItem) : Str :=
  joinSep ['\r', '\n'] ((csvHeader :: items.map (rowOf platform)).map csvLine) ++ ['\r', '\n']

inductive CsvSt where
  | outside
  | inQ
  | afterQ
deriving DecidableEq

/-- Modelled from the spec: the repository has no CSV reader, so re-parsing
for the round-trip property follows the spec's format description — every
field double-quote-enclosed with internal quotes doubled, fields separated
by commas, records separated by CRLF. State machine: `outside` expects an
opening quote, `inQ` reads field content, `afterQ` has just read a quote
that either ends the field or (doubled) stands for a literal quote. -/
def csvGo (st : CsvSt) (cur : Str) (curRec : List Str) (recs : List (List Str)) :
    Str → Option (List (List Str))
  | [] =>
    match st with
    | CsvSt.outside => if curRec.isEmpty then some recs.reverse else none
    | _ => none
  | c :: cs =>
    match st with
    | CsvSt.outside => if c = '"' then csvGo CsvSt.inQ [] curRec recs cs else none
    | CsvSt.inQ =>
      if c = '"' then csvGo CsvSt.afterQ cur curRec recs cs
      else csvGo CsvSt.inQ (c :: cur) curRec recs cs
    | CsvSt.afterQ =>
      if c = '"' then csvGo CsvSt.inQ ('"' :: cur) curRec recs cs
      else if c = ',' then csvGo CsvSt.outside [] (cur.reverse :: curRec) recs cs
      else if c = '\r' then
        match cs with
        | '\n' :: cs2 => csvGo CsvSt.outside [] [] ((cur.reverse :: curRec).reverse :: recs) cs2
        | _ => none
      else none

/-- Modelled from the spec: parse a whole CSV text into its records. -/
def csvParse (s : Str) : Option (List (List Str)) := csvGo CsvSt.outside [] [] [] s

/-- Well-formedness of a cleaned keyword token: non-empty, already
lowercase, and free of whitespace and of the separator characters. -/
abbrev KwToken (t : Str) : Prop :=
  t ≠ [] ∧ ∀ c ∈ t, lowerChar c = c ∧ isWsChar c = false ∧ c ∉ sepChars

/-! Character-table lemmas. -/

theorem lowerChar_eq_self_of_no_key (c : Char) (h : ∀ p ∈ lowerPairs, p.1 ≠ c) :
    lowerChar c = c := by
  have hf : lowerPairs.find? (fun p => p.1 == c) = none :=
    List.find?_eq_none.mpr (fun p hp => by simpa using h p hp)
  simp [lowerChar, hf]

theorem lowerChar_or (c : Char) :
    lowerChar c = c ∨ lowerChar c ∈ lowerPairs.map Prod.snd := by
  rcases hf : lowerPairs.find? (fun p => p.1 == c) with _ | p
  · left; simp [lowerChar, hf]
  · right
    have hm := List.mem_of_find?_eq_some hf
    have : lowerChar c = p.2 := by simp [lowerChar, hf]
    rw [this]
    exact List.mem_map.mpr ⟨p, hm, rfl⟩

theorem lowerChar_idem (c : Char) : lowerChar (lowerChar c) = lowerChar c := by
  rcases lowerChar_or c with h | h
  · rw [h, h]
  · refine lowerChar_eq_self_of_no_key _ (fun p hp => ?_)
    have hall : ∀ x ∈ lowerPairs.map Prod.snd, ∀ p ∈ lowerPairs, p.1 ≠ x := by decide
    exact hall _ h p hp

theorem upperChar_eq_self_of_no_key (c : Char) (h : ∀ p ∈ lowerPairs, p.2 ≠ c) :
    upperChar c = c := by
  have hf : (lowerPairs.map (fun p => (p.2, p.1))).find? (fun p => p.1 == c) = none := by
    refine List.find?_eq_none.mpr (fun q hq => ?_)
    rcases List.mem_map.mp hq with ⟨p, hp, rfl⟩
    simpa using h p hp
  simp [upperChar, hf]

theorem upperChar_spec (c : Char) :
    upperChar c = c ∨ ∃ p ∈ lowerPairs, c = p.2 ∧ upperChar c = p.1 := by
  rcases hf : (lowerPairs.map (fun p => (p.2, p.1))).find? (fun p => p.1 == c) with _ | q
  · left; simp [upperChar, hf]
  · right
    have hm := List.mem_of_find?_eq_some hf
    have hq := List.find?_some hf
    rcases List.mem_map.mp hm with ⟨p, hp, rfl⟩
    simp only [beq_iff_eq] at hq
    exact ⟨p, hp, hq.symm, by simp [upperChar, hf]⟩

theorem lowerChar_upperChar (c : Char) (h : lowerChar c = c) :
    lowerChar (upperChar c) = c := by
  rcases upperChar_spec c with h1 | ⟨p, hp, hc, hu⟩
  · rw [h1, h]
  · have hall : ∀ p ∈ lowerPairs, lowerChar p.1 = p.2 := by decide
    rw [hu, hall p hp, hc]

theorem upperChar_idem (c : Char) : upperChar (upperChar c) = upperChar c := by
  rcases upperChar_spec c with h | ⟨p, hp, _, hu⟩
  · rw [h, h]
  · rw [hu]
    refine upperChar_eq_self_of_no_key _ (fun q hq => ?_)
    have hall : ∀ p ∈ lowerPairs, ∀ q ∈ lowerPairs, q.2 ≠ p.1 := by decide
    exact hall p hp q hq

theorem lowerChar_notin_strip (c : Char) (h : c ∉ stripChars) :
    lowerChar c ∉ stripChars := by
  rcases lowerChar_or c with h1 | h1
  · rw [h1]; exact h
  · intro hc
    have hall : ∀ x ∈ lowerPairs.map Prod.snd, x ∉ stripChars := by decide
    exact hall _ h1 hc

theorem upperChar_notin_strip (c : Char) (h : c ∉ stripChars) :
    upperChar c ∉ stripChars := by
  rcases upperChar_spec c with h1 | ⟨p, hp, _, hu⟩
  · rw [h1]; exact h
  · intro hc
    have hall : ∀ p ∈ lowerPairs, p.1 ∉ stripChars := by decide
    exact hall p hp (hu ▸ hc)

/-! Basic string-primitive lemmas. -/

theorem mem_jsTrim {c : Char} {s : Str} (h : c ∈ jsTrim s) : c ∈ s := by
  unfold jsTrim at h
  rw [List.mem_reverse] at h
  have h1 := (List.dropWhile_sublist (l := (s.dropWhile isWsChar).reverse) isWsChar).mem h
  rw [List.mem_reverse] at h1
  exact (List.dropWhile_sublist (l := s) isWsChar).mem h1

theorem jsTrim_nil : jsTrim [] = [] := rfl

theorem jsTrim_cons_space (s : Str) : jsTrim (' ' :: s) = jsTrim s := by
  unfold jsTrim
  rw [List.dropWhile_cons_of_pos (by decide)]

theorem dropWhile_eq_self_of_none {p : Char → Bool} {s : Str}
    (h : ∀ c ∈ s, p c = false) : s.dropWhile p = s := by
  cases s with
  | nil => rfl
  | cons c cs => rw [List.dropWhile_cons_of_neg (by simp [h c (by simp)])]

theorem jsTrim_eq_self {s : Str} (h : ∀ c ∈ s, isWsChar c = false) : jsTrim s = s := by
  unfold jsTrim
  rw [dropWhile_eq_self_of_none h, dropWhile_eq_self_of_none (fun c hc => h c (by simpa using hc)),
    List.reverse_reverse]

theorem mem_collapseWs {c : Char} : ∀ {s : Str}, c ∈ collapseWs s → c = ' ' ∨ c ∈ s
  | [], h => by simp [collapseWs] at h
  | [c1], h => by
    simp only [collapseWs] at h
    split at h <;> simp_all
  | c1 :: c2 :: cs, h => by
    simp only [collapseWs] at h
    split at h
    · rcases mem_collapseWs h with h1 | h1
      · exact Or.inl h1
      · exact Or.inr (by simp [h1, List.mem_cons])
    · rcases List.mem_cons.mp h with h1 | h1
      · split at h1
        · exact Or.inl h1
        · exact Or.inr (by simp [h1])
      · rcases mem_collapseWs h1 with h2 | h2
        · exact Or.inl h2
        · exact Or.inr (by rcases List.mem_cons.mp h2 with h3 | h3 <;> simp [h3])

theorem mem_dedupGo {t : Str} : ∀ {seen l : List Str}, t ∈ dedupGo seen l → t ∈ l
  | _, [], h => by simp [dedupGo] at h
  | seen, u :: us, h => by
    simp only [dedupGo] at h
    split at h
    · exact List.mem_cons_of_mem _ (mem_dedupGo h)
    · rcases List.mem_cons.mp h with h1 | h1
      · simp [h1]
      · exact List.mem_cons_of_mem _ (mem_dedupGo h1)

theorem dedupGo_nodup : ∀ (seen l : List Str),
    (dedupGo seen l).Nodup ∧ ∀ t ∈ dedupGo seen l, t ∉ seen
  | _, [] => by simp [dedupGo]
  | seen, u :: us => by
    simp only [dedupGo]
    split
    · exact dedupGo_nodup seen us
    · rename_i hu
      obtain ⟨hn, hs⟩ := dedupGo_nodup (u :: seen) us
      refine ⟨List.nodup_cons.mpr ⟨fun hmem => ?_, hn⟩, fun t ht => ?_⟩
      · exact hs u hmem (by simp)
      · rcases List.mem_cons.mp ht with h1 | h1
        · subst h1; exact hu
        · intro hts; exact hs t h1 (List.mem_cons_of_mem _ hts)

theorem dedupGo_eq_self : ∀ {seen l : List Str},
    (∀ t ∈ l, t ∉ seen) → l.Nodup → dedupGo seen l = l
  | _, [], _, _ => rfl
  | seen, u :: us, h, hn => by
    simp only [dedupGo]
    rw [if_neg (h u (by simp))]
    have hn' := List.nodup_cons.mp hn
    congr 1
    refine dedupGo_eq_self (fun t ht => ?_) hn'.2
    intro hts
    rcases List.mem_cons.mp hts with h1 | h1
    · subst h1; exact hn'.1 ht
    · exact h t (List.mem_cons_of_mem _ ht) h1

/-! Split / join lemmas. -/

theorem splitAnyOf_ne_nil (seps : List Char) : ∀ (s : Str), splitAnyOf seps s ≠ []
  | [] => by simp [splitAnyOf]
  | c :: cs => by
    simp only [splitAnyOf]
    split <;> simp

theorem mem_splitAnyOf (seps : List Char) :
    ∀ {s : Str} {t : Str}, t ∈ splitAnyOf seps s → ∀ c ∈ t, c ∈ s ∧ c ∉ seps
  | [], t, ht => by
    simp [splitAnyOf] at ht
    simp [ht]
  | c :: cs, t, ht => by
    intro d hd
    simp only [splitAnyOf] at ht
    split at ht
    · rcases List.mem_cons.mp ht with h1 | h1
      · simp [h1] at hd
      · obtain ⟨h2, h3⟩ := mem_splitAnyOf seps h1 d hd
        exact ⟨List.mem_cons_of_mem _ h2, h3⟩
    · rename_i hc
      rcases List.mem_cons.mp ht with h1 | h1
      · subst h1
        rcases List.mem_cons.mp hd with h2 | h2
        · subst h2; exact ⟨by simp, hc⟩
        · rcases hr : splitAnyOf seps cs with _ | ⟨hd0, tl0⟩
          · exact absurd hr (splitAnyOf_ne_nil seps cs)
          · rw [hr] at h2
            simp only [List.headD_cons] at h2
            obtain ⟨h3, h4⟩ := mem_splitAnyOf seps (by rw [hr]; simp : hd0 ∈ splitAnyOf seps cs) d h2
            exact ⟨List.mem_cons_of_mem _ h3, h4⟩
      · rcases hr : splitAnyOf seps cs with _ | ⟨hd0, tl0⟩
        · exact absurd hr (splitAnyOf_ne_nil seps cs)
        · rw [hr] at h1
          simp only [List.tail_cons] at h1
          obtain ⟨h3, h4⟩ := mem_splitAnyOf seps
            (by rw [hr]; exact List.mem_cons_of_mem _ h1 : t ∈ splitAnyOf seps cs) d hd
          exact ⟨List.mem_cons_of_mem _ h3, h4⟩

theorem splitAnyOf_sep_cons {seps : List Char} {c : Char} (hc : c ∈ seps) (cs : Str) :
    splitAnyOf seps (c :: cs) = [] :: splitAnyOf seps cs := by
  simp [splitAnyOf, hc]

theorem splitAnyOf_nonsep_cons {seps : List Char} {c : Char} (hc : c ∉ seps) (cs : Str) :
    splitAnyOf seps (c :: cs) =
      (c :: (splitAnyOf seps cs).headD []) :: (splitAnyOf seps cs).tail := by
  simp [splitAnyOf, hc]

theorem splitAnyOf_append {seps : List Char} :
    ∀ {t : Str}, (∀ c ∈ t, c ∉ seps) → ∀ {cs : Str} {hd : Str} {tl : List Str},
      splitAnyOf seps cs = hd :: tl → splitAnyOf seps (t ++ cs) = (t ++ hd) :: tl
  | [], _, cs, hd, tl, h => by simpa using h
  | c :: t', ht, cs, hd, tl, h => by
    have hc : c ∉ seps := ht c (by simp)
    have ih := splitAnyOf_append (fun d hd2 => ht d (List.mem_cons_of_mem _ hd2)) h
    rw [List.cons_append, splitAnyOf_nonsep_cons hc, ih]
    simp

theorem joinSep_cons (sep : Str) (t : Str) {ts : List Str} (h : ts ≠ []) :
    joinSep sep (t :: ts) = t ++ sep ++ joinSep sep ts := by
  cases ts with
  | nil => exact absurd rfl h
  | cons t' ts' => rfl

/-- Splitting the comma-space join of well-formed tokens, then trimming and
dropping empties, recovers the tokens: the common re-tokenisation pattern of
`buildKeywords` and of re-running `autoCleanKeywords` on its own output. -/
theorem splitJoin_recover (seps : List Char) (hcomma : ',' ∈ seps) (hspace : ' ' ∉ seps) :
    ∀ {L : List Str}, (∀ t ∈ L, t ≠ [] ∧ ∀ c ∈ t, isWsChar c = false ∧ c ∉ seps) →
      ((splitAnyOf seps (joinSep (", ".toList) L)).map jsTrim).filter (fun t => !t.isEmpty) = L
  | [], _ => by simp [joinSep, splitAnyOf, jsTrim_nil]
  | [t], h => by
    obtain ⟨hne, hch⟩ := h t (by simp)
    have : splitAnyOf seps (t ++ []) = (t ++ []) :: [] :=
      splitAnyOf_append (fun c hc => (hch c hc).2) (by simp [splitAnyOf])
    simp only [joinSep]
    rw [(by simp : t = t ++ ([] : Str)), this]
    simp only [List.map_cons, List.map_nil, List.append_nil]
    rw [jsTrim_eq_self (fun c hc => (hch c hc).1)]
    have hkeep : (!t.isEmpty) = true := by
      cases t with
      | nil => exact absurd rfl hne
      | cons a b => simp
    simp [List.filter_cons, hkeep]
  | t :: t' :: ts, h => by
    obtain ⟨hne, hch⟩ := h t (by simp)
    have hrest : joinSep (", ".toList) (t :: t' :: ts) =
        t ++ (',' :: ' ' :: joinSep (", ".toList) (t' :: ts)) := by
      rw [joinSep_cons _ _ (by simp)]
      simp [List.append_assoc]
    rcases hr : splitAnyOf seps (joinSep (", ".toList) (t' :: ts)) with _ | ⟨hd0, tl0⟩
    · exact absurd hr (splitAnyOf_ne_nil seps _)
    · have hsp : splitAnyOf seps (' ' :: joinSep (", ".toList) (t' :: ts)) =
          (' ' :: hd0) :: tl0 := by
        rw [splitAnyOf_nonsep_cons hspace, hr]; simp
      have hcm : splitAnyOf seps (',' :: ' ' :: joinSep (", ".toList) (t' :: ts)) =
          [] :: (' ' :: hd0) :: tl0 := by
        rw [splitAnyOf_sep_cons hcomma, hsp]
      have happ := splitAnyOf_append (fun c hc => (hch c hc).2) hcm
      rw [hrest, happ]
      simp only [List.append_nil, List.map_cons, List.filter_cons]
      rw [jsTrim_eq_self (fun c hc => (hch c hc).1), jsTrim_cons_space]
      have hkeep : (!t.isEmpty) = true := by
        cases t with
        | nil => exact absurd rfl hne
        | cons a b => simp
      rw [if_pos hkeep]
      have ih := splitJoin_recover seps hcomma hspace
        (fun u hu => h u (List.mem_cons_of_mem _ hu)) (L := t' :: ts)
      rw [hr] at ih
      simp only [List.map_cons, List.filter_cons] at ih
      rw [ih]

/-! Token well-formedness lemmas. -/

theorem firstWordJs_eq_self {t : Str} (hne : t ≠ []) (h : ∀ c ∈ t, isWsChar c = false) :
    firstWordJs t = t := by
  cases t with
  | nil => exact absurd rfl hne
  | cons c cs =>
    simp only [firstWordJs]
    rw [if_neg (by simp [h c (by simp)])]
    exact List.takeWhile_eq_self_iff.mpr (fun x hx => by simp [h x hx])

theorem jsToLower_eq_self {s : Str} (h : ∀ c ∈ s, lowerChar c = c) : jsToLower s = s := by
  calc jsToLower s = s.map id := List.map_congr_left h
  _ = s := List.map_id s

theorem mem_joinSep {c : Char} {sep : Str} :
    ∀ {L : List Str}, c ∈ joinSep sep L → (∃ t ∈ L, c ∈ t) ∨ c ∈ sep
  | [], h => by simp [joinSep] at h
  | [t], h => by
    simp only [joinSep] at h
    exact Or.inl ⟨t, by simp, h⟩
  | t :: t' :: ts, h => by
    rw [joinSep_cons _ _ (by simp)] at h
    rcases List.mem_append.mp h with h1 | h1
    · rcases List.mem_append.mp h1 with h2 | h2
      · exact Or.inl ⟨t, by simp, h2⟩
      · exact Or.inr h2
    · rcases mem_joinSep h1 with ⟨u, hu, hcu⟩ | h2
      · exact Or.inl ⟨u, List.mem_cons_of_mem _ hu, hcu⟩
      · exact Or.inr h2

theorem acTokens_kw (raw : Str) (d : Bool) (extra : Str) :
    ∀ t ∈ acTokens raw d extra, KwToken t := by
  intro t ht
  simp only [acTokens] at ht
  have htok : t ∈ ((((splitAnyOf sepChars
      (jsToLower (raw ++ (if extra.isEmpty then [] else ',' :: extra)))).map jsTrim).filter
      (fun u => !u.isEmpty)).map firstWordJs).filter (fun u => !u.isEmpty) := by
    cases d with
    | true => exact mem_dedupGo ht
    | false => exact ht
  obtain ⟨hmem, hne⟩ := List.mem_filter.mp htok
  obtain ⟨u, hu, rfl⟩ := List.mem_map.mp hmem
  obtain ⟨hu2, _⟩ := List.mem_filter.mp hu
  obtain ⟨p, hp, rfl⟩ := List.mem_map.mp hu2
  have hne' : firstWordJs (jsTrim p) ≠ [] := by simpa using hne
  refine ⟨hne', fun c hc => ?_⟩
  have hcu : c ∈ jsTrim p ∧ isWsChar c = false := by
    cases htp : jsTrim p with
    | nil => rw [htp] at hc; simp [firstWordJs] at hc
    | cons c0 cs0 =>
      rw [htp] at hc
      simp only [firstWordJs] at hc
      split at hc
      · simp at hc
      · have h1 : c ∈ List.takeWhile (fun c2 => !isWsChar c2) (c0 :: cs0) := hc
        have h2 := List.mem_takeWhile_imp h1
        have h3 := (List.takeWhile_sublist (l := c0 :: cs0) (fun c2 => !isWsChar c2)).mem h1
        exact ⟨htp ▸ h3, by simpa using h2⟩
  have hcp : c ∈ p := mem_jsTrim hcu.1
  have hsa := mem_splitAnyOf sepChars hp c hcp
  obtain ⟨c0, _, rfl⟩ := List.mem_map.mp hsa.1
  exact ⟨lowerChar_idem c0, hcu.2, hsa.2⟩

/-- Re-running the token pipeline on an already-clean joined token list
returns the list unchanged. -/
theorem acTokens_join_self {L : List Str} (hkw : ∀ t ∈ L, KwToken t) (d : Bool)
    (hnd : d = true → L.Nodup) :
    acTokens (joinSep (", ".toList) L) d [] = L := by
  have hlow : ∀ c ∈ joinSep (", ".toList) L, lowerChar c = c := by
    intro c hc
    rcases mem_joinSep hc with ⟨u, hu, hcu⟩ | h2
    · exact ((hkw u hu).2 c hcu).1
    · have : ∀ c ∈ (", ".toList : Str), lowerChar c = c := by decide
      exact this c h2
  have hrec := splitJoin_recover sepChars (by decide) (by decide)
    (L := L) (fun u hu => ⟨(hkw u hu).1, fun c hc => ⟨((hkw u hu).2 c hc).2.1, ((hkw u hu).2 c hc).2.2⟩⟩)
  simp only [acTokens, List.isEmpty_nil, if_true, List.append_nil]
  rw [jsToLower_eq_self hlow, hrec]
  have hfw : L.map firstWordJs = L := by
    have : ∀ t ∈ L, firstWordJs t = t := fun t ht =>
      firstWordJs_eq_self (hkw t ht).1 (fun c hc => ((hkw t ht).2 c hc).2.1)
    calc L.map firstWordJs = L.map id := List.map_congr_left this
    _ = L := List.map_id L
  rw [hfw]
  have hfl : L.filter (fun u => !u.isEmpty) = L := by
    refine List.filter_eq_self.mpr (fun t ht => ?_)
    have := (hkw t ht).1
    cases t with
    | nil => exact absurd rfl this
    | cons a b => simp
  rw [hfl]
  cases d with
  | true => exact dedupGo_eq_self (by simp) (hnd rfl)
  | false => rfl

/-! buildKeywords token-list lemmas. -/

theorem reTokens_recover {L : List Str} (hkw : ∀ t ∈ L, KwToken t) :
    reTokens (joinSep (", ".toList) L) = L := by
  unfold reTokens splitChar
  refine splitJoin_recover [','] (by decide) (by decide) (fun t ht => ⟨(hkw t ht).1, fun c hc => ?_⟩)
  refine ⟨((hkw t ht).2 c hc).2.1, fun hmem => ((hkw t ht).2 c hc).2.2 ?_⟩
  have : c = ',' := by simpa using hmem
  subst this
  decide

theorem mem_fillerLoop {x : Str} :
    ∀ {pool : List Str} {comb : List Str} {tgt : Nat},
      x ∈ fillerLoop comb tgt pool → x ∈ comb ∨ x ∈ pool
  | [], comb, tgt, h => Or.inl h
  | w :: ws, comb, tgt, h => by
    simp only [fillerLoop] at h
    split at h
    · exact Or.inl h
    · split at h
      · rcases mem_fillerLoop h with h1 | h1
        · exact Or.inl h1
        · exact Or.inr (List.mem_cons_of_mem _ h1)
      · rcases mem_fillerLoop h with h1 | h1
        · rcases List.mem_append.mp h1 with h2 | h2
          · exact Or.inl h2
          · exact Or.inr (by simp [List.mem_singleton.mp h2])
        · exact Or.inr (List.mem_cons_of_mem _ h1)

theorem length_le_fillerLoop :
    ∀ (pool : List Str) (comb : List Str) (tgt : Nat),
      comb.length ≤ (fillerLoop comb tgt pool).length
  | [], comb, tgt => le_refl _
  | w :: ws, comb, tgt => by
    simp only [fillerLoop]
    split
    · exact le_refl _
    · split
      · exact length_le_fillerLoop ws comb tgt
      · calc comb.length ≤ (comb ++ [w]).length := by simp
        _ ≤ _ := length_le_fillerLoop ws (comb ++ [w]) tgt

theorem fillerLoop_len_pos (pool : List Str) (hp : pool ≠ []) (comb : List Str) {tgt : Nat}
    (htgt : 1 ≤ tgt) : 1 ≤ (fillerLoop comb tgt pool).length := by
  cases comb with
  | cons t ts =>
    calc 1 ≤ (t :: ts).length := by simp
    _ ≤ _ := length_le_fillerLoop pool (t :: ts) tgt
  | nil =>
    cases pool with
    | nil => exact absurd rfl hp
    | cons w ws =>
      simp only [fillerLoop]
      rw [if_neg (by simp only [List.length_nil]; omega), if_neg (by simp)]
      calc 1 ≤ (([] ++ [w] : List Str)).length := by simp
      _ ≤ _ := length_le_fillerLoop ws ([] ++ [w]) tgt

theorem fillerPool_kw : ∀ t ∈ fillerPool, KwToken t := by decide

theorem mem_ite_list {c : Prop} [Decidable c] {A B : List Str} {t : Str}
    (h : t ∈ if c then A else B) : t ∈ A ∨ t ∈ B := by
  split at h
  · exact Or.inl h
  · exact Or.inr h

theorem buildKeywordsList_kw (b bl : Str) (d : Bool) (n : Nat) :
    ∀ t ∈ buildKeywordsList b bl d n, KwToken t := by
  intro t ht
  unfold buildKeywordsList at ht
  have ht2 := List.take_subset _ _ ht
  have hcomb0 : ∀ u ∈ reTokens (autoCleanKeywords b d bl), KwToken u := by
    rw [autoCleanKeywords, reTokens_recover (acTokens_kw b d bl)]
    exact acTokens_kw b d bl
  have hbulk : ∀ u ∈ reTokens (autoCleanKeywords bl d []), KwToken u := by
    rw [autoCleanKeywords, reTokens_recover (acTokens_kw bl d [])]
    exact acTokens_kw bl d []
  rcases mem_fillerLoop ht2 with h1 | h1
  · rcases mem_ite_list h1 with h2 | h2
    · exact hcomb0 t h2
    · rcases List.mem_append.mp (mem_dedupGo h2) with h3 | h3
      · rcases mem_ite_list h3 with h4 | h4
        · exact hbulk t h4
        · simp at h4
      · exact hcomb0 t h3
  · exact fillerPool_kw t h1

theorem buildKeywordsList_length (b bl : Str) (d : Bool) (n : Nat) :
    (buildKeywordsList b bl d n).length ≤ n := by
  unfold buildKeywordsList
  simp [List.length_take]

theorem buildKeywordsList_ne_nil (b bl : Str) (d : Bool) {n : Nat} (hn : 1 ≤ n) :
    buildKeywordsList b bl d n ≠ [] := by
  unfold buildKeywordsList
  intro h
  rcases List.take_eq_nil_iff.mp h with h1 | h1
  · omega
  · have hpos := fillerLoop_len_pos fillerPool (by decide) (if (if bl ≠ [] ∧ jsTrim bl ≠ [] then
        reTokens (autoCleanKeywords bl d []) else []).isEmpty then
        reTokens (autoCleanKeywords b d bl) else
        dedupGo [] ((if bl ≠ [] ∧ jsTrim bl ≠ [] then
          reTokens (autoCleanKeywords bl d []) else []) ++ reTokens (autoCleanKeywords b d bl))) hn
    rw [h1] at hpos
    simp at hpos

/-! splitCommaSpace lemmas. -/

theorem splitCommaSpace_ne_nil : ∀ (s : Str), splitCommaSpace s ≠ []
  | [] => by simp [splitCommaSpace]
  | [c] => by simp [splitCommaSpace]
  | c1 :: c2 :: cs => by
    rw [splitCommaSpace.eq_def]
    split <;> simp

theorem splitCommaSpace_cons_ne {c : Char} (h : c ≠ ',') (cs : Str) :
    splitCommaSpace (c :: cs) =
      (c :: (splitCommaSpace cs).headD []) :: (splitCommaSpace cs).tail := by
  rw [splitCommaSpace.eq_def]
  split
  · rename_i heq
    cases heq
  · rename_i cs2 heq
    injection heq with h1 h2
    exact absurd h1 h
  · rename_i c2 cs2 heq
    injection heq with h1 h2
    subst h1; subst h2
    rfl

theorem splitCommaSpace_append {t : Str} (ht : ',' ∉ t) {cs : Str} {hd : Str} {tl : List Str}
    (h : splitCommaSpace cs = hd :: tl) :
    splitCommaSpace (t ++ cs) = (t ++ hd) :: tl := by
  induction t with
  | nil => simpa using h
  | cons c t' ih =>
    have hc : c ≠ ',' := fun hc => ht (by simp [hc])
    have ih2 := ih (fun hmem => ht (List.mem_cons_of_mem _ hmem))
    rw [List.cons_append, splitCommaSpace_cons_ne hc, ih2]
    simp

theorem splitCommaSpace_join {L : List Str} (hne : L ≠ [])
    (hL : ∀ t ∈ L, ',' ∉ t) :
    splitCommaSpace (joinSep (", ".toList) L) = L := by
  induction L with
  | nil => exact absurd rfl hne
  | cons t ts ih =>
    cases ts with
    | nil =>
      have : splitCommaSpace (t ++ []) = (t ++ []) :: [] :=
        splitCommaSpace_append (hL t (by simp)) (by simp [splitCommaSpace])
      simpa [joinSep] using this
    | cons t' ts' =>
      rw [joinSep_cons _ _ (by simp)]
      have hrest := ih (by simp) (fun u hu => hL u (List.mem_cons_of_mem _ hu))
      have hsep : splitCommaSpace (',' :: ' ' :: joinSep (", ".toList) (t' :: ts')) =
          [] :: splitCommaSpace (joinSep (", ".toList) (t' :: ts')) := rfl
      rw [hrest] at hsep
      have happ := splitCommaSpace_append (hL t (by simp)) hsep
      rw [(by simp [List.append_assoc] : t ++ ", ".toList ++ joinSep (", ".toList) (t' :: ts') =
        t ++ (',' :: ' ' :: joinSep (", ".toList) (t' :: ts'))), happ]
      simp

theorem acTokens_nodup (raw extra : Str) : (acTokens raw true extra).Nodup := by
  unfold acTokens
  exact (dedupGo_nodup [] _).1

/-- C6: `cleanKeywords` applied to "Red Car, red car, blue Sky" with dedupe
true and empty extra returns "red, blue" — each token is reduced to its
first word before deduplication, and deduplication keeps the first
occurrence. -/
theorem c6_cleanKeywords_example :
    autoCleanKeywords "Red Car, red car, blue Sky".toList true [] = "red, blue".toList := by
  decide

/-- C7: `cleanKeywords` is idempotent — for every raw string, dedupe flag
and extra string, applying it a second time to its own output with the same
dedupe flag and empty extra returns that output unchanged. -/
theorem c7_cleanKeywords_idempotent (raw : Str) (d : Bool) (extra : Str) :
    autoCleanKeywords (autoCleanKeywords raw d extra) d [] = autoCleanKeywords raw d extra := by
  have h := acTokens_join_self (L := acTokens raw d extra) (acTokens_kw raw d extra) d
    (fun hd => by subst hd; exact acTokens_nodup raw extra)
  calc autoCleanKeywords (autoCleanKeywords raw d extra) d []
      = joinSep (", ".toList) (acTokens (joinSep (", ".toList) (acTokens raw d extra)) d []) := rfl
    _ = joinSep (", ".toList) (acTokens raw d extra) := by rw [h]
    _ = autoCleanKeywords raw d extra := rfl

/-- C1 counterexample: at `targetCount = 0` the output of `buildKeywords`
is the empty string, which still splits into one (empty) entry, exceeding
the target of zero. -/
theorem c1_zero_target_exceeded :
    ¬ (splitCommaSpace (buildKeywords [] [] true 0)).length ≤ 0 := by decide

/-- C1 (amended): for every baseKeywords string, bulkText string, dedupe
flag and every `targetCount ≥ 1`, the result of `buildKeywords`, split on
", ", has at most `targetCount` entries. -/
theorem c1_keywords_count_le_target (b bl : Str) (d : Bool) {n : Nat} (hn : 1 ≤ n) :
    (splitCommaSpace (buildKeywords b bl d n)).length ≤ n := by
  unfold buildKeywords
  rcases hL : buildKeywordsList b bl d n with _ | ⟨t, ts⟩
  · exact absurd hL (buildKeywordsList_ne_nil b bl d hn)
  · have hkw := buildKeywordsList_kw b bl d n
    rw [hL] at hkw
    have hcomma : ∀ u ∈ t :: ts, ',' ∉ u := fun u hu hmem =>
      ((hkw u hu).2 ',' hmem).2.2 (by decide)
    rw [splitCommaSpace_join (by simp) hcomma]
    have hlen := buildKeywordsList_length b bl d n
    rw [hL] at hlen
    exact hlen

/-- C1 witness: the amended bound at a concrete input. -/
theorem c1_keywords_count_le_target_witness :
    1 ≤ 5 ∧ (splitCommaSpace (buildKeywords "cat dog, bird".toList "sky".toList true 5)).length ≤ 5 :=
  ⟨by decide, c1_keywords_count_le_target "cat dog, bird".toList "sky".toList true (by decide)⟩

/-- C10 counterexample: at `targetCount = 0` the split of the (empty)
`buildKeywords` output has an empty entry, so not every entry is a
non-empty token. -/
theorem c10_zero_target_empty_entry :
    ¬ (∀ t ∈ splitCommaSpace (buildKeywords [] [] true 0), t ≠ []) := by decide

/-- C10 (amended, implicit invariant): for every input and `targetCount ≥ 1`,
every entry of the `buildKeywords` result split on ", " is a non-empty
lowercase token with no whitespace and no comma; and every
filler-vocabulary word already has this shape. -/
theorem c10_keyword_entries_wellformed (b bl : Str) (d : Bool) {n : Nat} (hn : 1 ≤ n) :
    (∀ t ∈ splitCommaSpace (buildKeywords b bl d n),
      t ≠ [] ∧ ∀ c ∈ t, lowerChar c = c ∧ isWsChar c = false ∧ c ≠ ',') ∧
    (∀ w ∈ fillerPool,
      w ≠ [] ∧ ∀ c ∈ w, lowerChar c = c ∧ isWsChar c = false ∧ c ≠ ',') := by
  constructor
  · intro t ht
    rw [buildKeywords] at ht
    rcases hL : buildKeywordsList b bl d n with _ | ⟨u, us⟩
    · exact absurd hL (buildKeywordsList_ne_nil b bl d hn)
    · have hkw := buildKeywordsList_kw b bl d n
      rw [hL] at hkw ht
      have hcomma : ∀ v ∈ u :: us, ',' ∉ v := fun v hv hmem =>
        ((hkw v hv).2 ',' hmem).2.2 (by decide)
      rw [splitCommaSpace_join (by simp) hcomma] at ht
      refine ⟨(hkw t ht).1, fun c hc => ?_⟩
      obtain ⟨h1, h2, h3⟩ := (hkw t ht).2 c hc
      exact ⟨h1, h2, fun hcm => h3 (by rw [hcm]; decide)⟩
  · decide

/-- C10 witness: the amended invariant at a concrete input. -/
theorem c10_keyword_entries_wellformed_witness :
    1 ≤ 3 ∧
    ((∀ t ∈ splitCommaSpace (buildKeywords "Sky Blue, sun".toList [] false 3),
      t ≠ [] ∧ ∀ c ∈ t, lowerChar c = c ∧ isWsChar c = false ∧ c ≠ ',') ∧
    (∀ w ∈ fillerPool,
      w ≠ [] ∧ ∀ c ∈ w, lowerChar c = c ∧ isWsChar c = false ∧ c ≠ ',')) :=
  ⟨by decide, c10_keyword_entries_wellformed "Sky Blue, sun".toList [] false (by decide)⟩

/-! normalizeTitle lemmas. -/

theorem upperChar_ne_space {c : Char} (h : c ≠ ' ') : upperChar c ≠ ' ' := by
  rcases upperChar_spec c with h1 | ⟨p, hp, _, hu⟩
  · rw [h1]; exact h
  · rw [hu]
    have : ∀ p ∈ lowerPairs, p.1 ≠ ' ' := by decide
    exact this p hp

theorem mem_dedupWordsGo {t : Str} :
    ∀ {seen l : List Str}, t ∈ dedupWordsGo seen l → t ∈ l ∧ t ≠ []
  | _, [], h => by simp [dedupWordsGo] at h
  | seen, u :: us, h => by
    simp only [dedupWordsGo] at h
    split at h
    · obtain ⟨h1, h2⟩ := mem_dedupWordsGo h
      exact ⟨List.mem_cons_of_mem _ h1, h2⟩
    · split at h
      · obtain ⟨h1, h2⟩ := mem_dedupWordsGo h
        exact ⟨List.mem_cons_of_mem _ h1, h2⟩
      · rcases List.mem_cons.mp h with h1 | h1
        · subst h1
          rename_i hne _
          exact ⟨by simp, by simpa using hne⟩
        · obtain ⟨h2, h3⟩ := mem_dedupWordsGo h1
          exact ⟨List.mem_cons_of_mem _ h2, h3⟩

theorem dedupWordsGo_nodup : ∀ (seen l : List Str),
    (dedupWordsGo seen l).Nodup ∧ ∀ t ∈ dedupWordsGo seen l, t ∉ seen
  | _, [] => by simp [dedupWordsGo]
  | seen, u :: us => by
    simp only [dedupWordsGo]
    split
    · exact dedupWordsGo_nodup seen us
    · split
      · exact dedupWordsGo_nodup seen us
      · rename_i hu
        obtain ⟨hn, hs⟩ := dedupWordsGo_nodup (u :: seen) us
        refine ⟨List.nodup_cons.mpr ⟨fun hmem => ?_, hn⟩, fun t ht => ?_⟩
        · exact hs u hmem (by simp)
        · rcases List.mem_cons.mp ht with h1 | h1
          · subst h1; exact hu
          · intro hts; exact hs t h1 (List.mem_cons_of_mem _ hts)

theorem splitAnyOf_join_single {sep : Char} :
    ∀ {L : List Str}, L ≠ [] → (∀ t ∈ L, sep ∉ t) →
      splitAnyOf [sep] (joinSep [sep] L) = L
  | [], hne, _ => absurd rfl hne
  | [t], _, hL => by
    have : splitAnyOf [sep] (t ++ []) = (t ++ []) :: [] :=
      splitAnyOf_append (fun c hc hmem => hL t (by simp)
        (by have hce : c = sep := by simpa using hmem
            exact hce ▸ hc))
        (by simp [splitAnyOf])
    simpa [joinSep] using this
  | t :: t' :: ts, _, hL => by
    rw [joinSep_cons _ _ (by simp)]
    have hrest := splitAnyOf_join_single (L := t' :: ts) (by simp)
      (fun u hu => hL u (List.mem_cons_of_mem _ hu))
    have hsep : splitAnyOf [sep] (sep :: joinSep [sep] (t' :: ts)) =
        [] :: splitAnyOf [sep] (joinSep [sep] (t' :: ts)) :=
      splitAnyOf_sep_cons (by simp) _
    rw [hrest] at hsep
    have hnot : ∀ c ∈ t, c ∉ [sep] := by
      intro c hc hmem
      have hce : c = sep := by simpa using hmem
      exact hL t (by simp) (hce ▸ hc)
    have happ := splitAnyOf_append hnot hsep
    rw [(by simp : t ++ [sep] ++ joinSep [sep] (t' :: ts) =
      t ++ (sep :: joinSep [sep] (t' :: ts))), happ]
    simp

theorem capitalizeFirst_join (c0 : Char) (w : Str) (ws : List Str) :
    capitalizeFirst (joinSep [' '] ((c0 :: w) :: ws)) =
      joinSep [' '] ((upperChar c0 :: w) :: ws) := by
  cases ws with
  | nil => rfl
  | cons w1 ws1 =>
    rw [joinSep_cons [' '] (c0 :: w) (by simp), joinSep_cons [' '] (upperChar c0 :: w) (by simp)]
    simp [capitalizeFirst]

theorem normText_facts (raw : Str) :
    ∀ c ∈ jsToLower (jsTrim (collapseWs
      (raw.map (fun c => if c ∈ stripChars then ' ' else c)))),
      lowerChar c = c ∧ c ∉ stripChars := by
  intro c hc
  obtain ⟨c0, hc0, rfl⟩ := List.mem_map.mp hc
  refine ⟨lowerChar_idem c0, lowerChar_notin_strip c0 ?_⟩
  have h1 := mem_jsTrim hc0
  rcases mem_collapseWs h1 with h2 | h2
  · subst h2; decide
  · obtain ⟨c1, _, hc1⟩ := List.mem_map.mp h2
    by_cases hs : c1 ∈ stripChars
    · rw [if_pos hs] at hc1; subst hc1; decide
    · rw [if_neg hs] at hc1; subst hc1; exact hs

theorem normCore_props {T : Str} (hfacts : ∀ c ∈ T, lowerChar c = c ∧ c ∉ stripChars)
    (out : Str)
    (hout : out = capitalizeFirst (joinSep [' '] (dedupWordsGo [] (splitChar ' ' T)))) :
    (∀ c ∈ out, c ∉ stripChars) ∧
    ((splitChar ' ' out).map jsToLower).Nodup ∧
    (∀ c, out.head? = some c → upperChar c = c) ∧
    (∀ c ∈ out.tail, lowerChar c = c) := by
  have hU : ∀ w ∈ dedupWordsGo [] (splitChar ' ' T),
      w ≠ [] ∧ ∀ c ∈ w, lowerChar c = c ∧ c ∉ stripChars ∧ c ≠ ' ' := by
    intro w hw
    obtain ⟨hw1, hw2⟩ := mem_dedupWordsGo hw
    refine ⟨hw2, fun c hc => ?_⟩
    obtain ⟨hcT, hcs⟩ := mem_splitAnyOf [' '] hw1 c hc
    obtain ⟨hl, hns⟩ := hfacts c hcT
    exact ⟨hl, hns, by simpa using hcs⟩
  have hnd := (dedupWordsGo_nodup [] (splitChar ' ' T)).1
  rcases hUe : dedupWordsGo [] (splitChar ' ' T) with _ | ⟨w0, ws⟩
  · rw [hUe] at hout
    subst hout
    exact ⟨by simp [joinSep, capitalizeFirst], by decide, by simp [joinSep, capitalizeFirst],
      by simp [joinSep, capitalizeFirst]⟩
  · rw [hUe] at hout hU
    rw [hUe] at hnd
    obtain ⟨hw0ne, hw0ch⟩ := hU w0 (by simp)
    rcases hw0 : w0 with _ | ⟨c0, w0'⟩
    · exact absurd hw0 hw0ne
    subst hw0
    rw [capitalizeFirst_join c0 w0' ws] at hout
    have hc0 := hw0ch c0 (by simp)
    have hw0' : ∀ c ∈ w0', lowerChar c = c ∧ c ∉ stripChars ∧ c ≠ ' ' :=
      fun c hc => hw0ch c (List.mem_cons_of_mem _ hc)
    have hws : ∀ w ∈ ws, w ≠ [] ∧ ∀ c ∈ w, lowerChar c = c ∧ c ∉ stripChars ∧ c ≠ ' ' :=
      fun w hw => hU w (List.mem_cons_of_mem _ hw)
    have hstruct : ∃ rest, out = upperChar c0 :: rest ∧
        ∀ c ∈ rest, lowerChar c = c ∧ c ∉ stripChars := by
      cases ws with
      | nil =>
        refine ⟨w0', by simpa [joinSep] using hout, fun c hc => ?_⟩
        exact ⟨(hw0' c hc).1, (hw0' c hc).2.1⟩
      | cons w1 ws1 =>
        rw [joinSep_cons [' '] (upperChar c0 :: w0') (by simp)] at hout
        refine ⟨(w0' ++ [' ']) ++ joinSep [' '] (w1 :: ws1), by simpa using hout, fun c hc => ?_⟩
        rcases List.mem_append.mp hc with h1 | h1
        · rcases List.mem_append.mp h1 with h2 | h2
          · exact ⟨(hw0' c h2).1, (hw0' c h2).2.1⟩
          · have : c = ' ' := by simpa using h2
            subst this
            exact ⟨by decide, by decide⟩
        · rcases mem_joinSep h1 with ⟨u, hu, hcu⟩ | h2
          · obtain ⟨_, hch⟩ := hws u hu
            exact ⟨(hch c hcu).1, (hch c hcu).2.1⟩
          · have : c = ' ' := by simpa using h2
            subst this
            exact ⟨by decide, by decide⟩
    obtain ⟨rest, hre, hrest⟩ := hstruct
    refine ⟨?_, ?_, ?_, ?_⟩
    · intro c hc
      rw [hre] at hc
      rcases List.mem_cons.mp hc with h1 | h1
      · subst h1
        exact upperChar_notin_strip c0 hc0.2.1
      · exact (hrest c h1).2
    · have hsplit : splitChar ' ' out = (upperChar c0 :: w0') :: ws := by
        rw [hout]
        refine splitAnyOf_join_single (by simp) ?_
        intro t ht hmem
        rcases List.mem_cons.mp ht with h1 | h1
        · subst h1
          rcases List.mem_cons.mp hmem with h2 | h2
          · exact upperChar_ne_space hc0.2.2 h2.symm
          · exact ( hw0' ' ' h2).2.2 rfl
        · exact ((hws t h1).2 ' ' hmem).2.2 rfl
      have hmap : (splitChar ' ' out).map jsToLower = (c0 :: w0') :: ws := by
        rw [hsplit]
        simp only [List.map_cons]
        congr 1
        · show lowerChar (upperChar c0) :: w0'.map lowerChar = c0 :: w0'
          rw [lowerChar_upperChar c0 hc0.1]
          congr 1
          exact jsToLower_eq_self (fun c hc => (hw0' c hc).1)
        · calc ws.map jsToLower = ws.map id :=
            List.map_congr_left (fun w hw => jsToLower_eq_self (fun c hc => ((hws w hw).2 c hc).1))
          _ = ws := List.map_id ws
      rw [hmap]
      exact hnd
    · intro c hc
      rw [hre] at hc
      simp only [List.head?_cons, Option.some.injEq] at hc
      rw [← hc]
      exact upperChar_idem c0
    · intro c hc
      rw [hre] at hc
      simp only [List.tail_cons] at hc
      exact (hrest c hc).1

/-- C5: for every input string, the output of `normalizeTitle` contains no
digit and no character of the stripped symbol set, has no duplicate words
(case-insensitively), its first character (if any) is uppercase (invariant
under `upperChar`) with the rest of the string lowercase (invariant under
`lowerChar`); and `normalizeTitle "Cat  CAT dog 123!!" = "Cat dog"`. -/
theorem c5_normalizeTitle_properties (raw : Str) :
    (∀ c ∈ normalizeTitle raw, c ∉ stripChars ∧
      c ∉ ['0', '1', '2', '3', '4', '5', '6', '7', '8', '9']) ∧
    ((splitChar ' ' (normalizeTitle raw)).map jsToLower).Nodup ∧
    (∀ c, (normalizeTitle raw).head? = some c → upperChar c = c) ∧
    (∀ c ∈ (normalizeTitle raw).tail, lowerChar c = c) ∧
    normalizeTitle "Cat  CAT dog 123!!".toList = "Cat dog".toList := by
  have hdig : ∀ x ∈ ['0', '1', '2', '3', '4', '5', '6', '7', '8', '9'], x ∈ stripChars := by
    decide
  by_cases hemp : (jsToLower (jsTrim (collapseWs
      (raw.map (fun c => if c ∈ stripChars then ' ' else c))))).isEmpty
  · have hout : normalizeTitle raw = [] := by
      simp only [normalizeTitle]
      rw [if_pos hemp]
    rw [hout]
    exact ⟨by simp, by decide, by simp, by simp, by decide⟩
  · have hout : normalizeTitle raw = capitalizeFirst (joinSep [' ']
        (dedupWordsGo [] (splitChar ' ' (jsToLower (jsTrim (collapseWs
          (raw.map (fun c => if c ∈ stripChars then ' ' else c)))))))) := by
      simp only [normalizeTitle]
      rw [if_neg hemp]
    obtain ⟨h1, h2, h3, h4⟩ := normCore_props (normText_facts raw) _ hout
    refine ⟨fun c hc => ⟨h1 c hc, fun hd => h1 c hc (hdig c hd)⟩, h2, h3, h4, by decide⟩

/-- C5 witness: the property instantiated at the spec's example input. -/
theorem c5_normalizeTitle_properties_witness :
    (∀ c ∈ normalizeTitle "Cat  CAT dog 123!!".toList, c ∉ stripChars ∧
      c ∉ ['0', '1', '2', '3', '4', '5', '6', '7', '8', '9']) ∧
    ((splitChar ' ' (normalizeTitle "Cat  CAT dog 123!!".toList)).map jsToLower).Nodup ∧
    (∀ c, (normalizeTitle "Cat  CAT dog 123!!".toList).head? = some c → upperChar c = c) ∧
    (∀ c ∈ (normalizeTitle "Cat  CAT dog 123!!".toList).tail, lowerChar c = c) ∧
    normalizeTitle "Cat  CAT dog 123!!".toList = "Cat dog".toList :=
  c5_normalizeTitle_properties "Cat  CAT dog 123!!".toList

/-! Key-rotation claim theorems. -/

/-- C2: with credentials `[A, B, C]` where the call with A fails and the
call with B succeeds, exactly two AI calls are made (with A then B), no call
is made with C, and the returned result is the result of the call with B.
The first component of `generateMetadataWithGemini` is the complete ordered
list of credentials actually passed to the AI client. -/
theorem c2_key_rotation {E M : Type} (call : Str → Except E M) (A B C : Str) (e : E) (m : M)
    (hA : jsTrim A = A) (hB : jsTrim B = B) (hC : jsTrim C = C)
    (hAne : A ≠ []) (hBne : B ≠ []) (hCne : C ≠ [])
    (hcallA : call A = Except.error e) (hcallB : call B = Except.ok m) :
    generateMetadataWithGemini call [A, B, C] = ([A, B], Except.ok m) := by
  have eA : (!A.isEmpty) = true := by
    cases A with
    | nil => exact absurd rfl hAne
    | cons a as => simp
  have eB : (!B.isEmpty) = true := by
    cases B with
    | nil => exact absurd rfl hBne
    | cons a as => simp
  have eC : (!C.isEmpty) = true := by
    cases C with
    | nil => exact absurd rfl hCne
    | cons a as => simp
  have hkeys : (([A, B, C].map jsTrim).filter (fun kk => !kk.isEmpty)) = [A, B, C] := by
    simp only [List.map_cons, List.map_nil, hA, hB, hC, List.filter_cons, eA, eB, eC,
      if_true, List.filter_nil]
  simp only [generateMetadataWithGemini]
  rw [hkeys]
  have hne : ([A, B, C] : List Str).isEmpty = false := by simp
  rw [hne]
  simp only [Bool.false_eq_true, if_false, rotateGo, hcallA, hcallB]

/-- C2 witness: a concrete three-credential run where the first key fails
and the second succeeds. -/
theorem c2_key_rotation_witness :
    (jsTrim "a".toList = "a".toList) ∧ (jsTrim "b".toList = "b".toList) ∧
    (jsTrim "c".toList = "c".toList) ∧
    ("a".toList ≠ ([] : Str)) ∧ ("b".toList ≠ ([] : Str)) ∧ ("c".toList ≠ ([] : Str)) ∧
    ((fun k => if k = "b".toList then Except.ok 7 else Except.error ()) "a".toList
      = Except.error ()) ∧
    ((fun k => if k = "b".toList then Except.ok 7 else Except.error ()) "b".toList
      = Except.ok 7) ∧
    generateMetadataWithGemini
      (fun k => if k = "b".toList then Except.ok 7 else Except.error ())
      ["a".toList, "b".toList, "c".toList]
      = (["a".toList, "b".toList], Except.ok 7) :=
  ⟨by decide, by decide, by decide, by decide, by decide, by decide, rfl, rfl,
    c2_key_rotation _ _ _ _ () 7 (by decide) (by decide) (by decide)
      (by decide) (by decide) (by decide) rfl rfl⟩

/-- C9: if the trimmed, non-empty credential list is empty, the rotation
fails with the no-credentials-configured error and no AI call is made (the
call trace is empty). -/
theorem c9_no_keys_fails_fast {E M : Type} (call : Str → Except E M) (apiKeys : List Str)
    (h : (apiKeys.map jsTrim).filter (fun kk => !kk.isEmpty) = []) :
    generateMetadataWithGemini call apiKeys = ([], Except.error RotErr.noKeys) := by
  simp only [generateMetadataWithGemini]
  rw [h]
  rfl

/-- C9 witness: blank and empty credential slots produce the
no-credentials error without any call. -/
theorem c9_no_keys_fails_fast_witness :
    ((["  ".toList, []] : List Str).map jsTrim).filter (fun kk => !kk.isEmpty) = [] ∧
    generateMetadataWithGemini
      (fun k => if k = "b".toList then Except.ok 7 else Except.error ())
      ["  ".toList, []]
      = ([], Except.error RotErr.noKeys) :=
  ⟨by decide, c9_no_keys_fails_fast _ _ (by decide)⟩

/-! Batch-orchestrator lemmas. -/

theorem setItem_getElem (id : Str) (g : FileItem → FileItem) (files : List FileItem)
    (p : Nat) {f : FileItem} (hf : files[p]? = some f) :
    (setItem id g files)[p]? = some (if f.id = id then g f else f) := by
  unfold setItem
  rw [List.getElem?_map, hf]
  rfl

theorem setItem_mem {a : FileItem} {files : List FileItem} (ha : a ∈ files)
    (id : Str) (g : FileItem → FileItem) (hne : a.id ≠ id) : a ∈ setItem id g files := by
  unfold setItem
  have h2 : (fun f => if f.id = id then g f else f) a = a := by simp [hne]
  have h3 := List.mem_map_of_mem (fun f => if f.id = id then g f else f) ha
  rwa [h2] at h3

theorem find?_id_of_mem {snap : List FileItem} {id : Str}
    (h : id ∈ snap.map (fun x => x.id)) :
    ∃ cur, snap.find? (fun x => x.id == id) = some cur := by
  obtain ⟨x, hx, hxid⟩ := List.mem_map.mp h
  have hsome : (snap.find? (fun x => x.id == id)).isSome :=
    List.find?_isSome.mpr ⟨x, hx, by simp [hxid]⟩
  exact Option.isSome_iff_exists.mp hsome

theorem generateForItem_getElem (gen : FileItem → Except Str GenMeta)
    (snap : List FileItem) (id : Str) (s : AppState) (p : Nat) {f : FileItem}
    (hf : s.files[p]? = some f) :
    ∃ f', (generateForItem gen snap id s).files[p]? = some f' ∧ f'.id = f.id ∧
      (f.id = id → id ∈ snap.map (fun x => x.id) → isTerminal f'.status = true) ∧
      (f.id ≠ id → f' = f) := by
  simp only [generateForItem]
  rcases hfind : snap.find? (fun x => x.id == id) with _ | cur
  · rw [hfind]
    refine ⟨if f.id = id then { f with status := FileStatus.generating, error := [] } else f,
      setItem_getElem id _ s.files p hf, ?_, ?_, ?_⟩
    · split <;> rfl
    · intro heq hmem
      obtain ⟨x, hx, hxid⟩ := List.mem_map.mp hmem
      have := List.find?_eq_none.mp hfind x hx
      simp [hxid] at this
    · intro hne
      rw [if_neg hne]
  · rw [hfind]
    dsimp only
    cases hgen : gen cur with
    | ok m =>
      dsimp only
      refine ⟨if f.id = id then
          { f with title := m.title, keywords := m.keywords, description := m.description,
                   status := FileStatus.success, error := [] } else f, ?_, ?_, ?_, ?_⟩
      · have h1 := setItem_getElem id
          (fun f => { f with status := FileStatus.generating, error := [] }) s.files p hf
        have h2 := setItem_getElem id
          (fun f => { f with title := m.title, keywords := m.keywords,
                             description := m.description, status := FileStatus.success })
          _ p h1
        refine h2.trans ?_
        by_cases hid : f.id = id <;> simp [hid]
      · split <;> rfl
      · intro hid _
        rw [if_pos hid]
        rfl
      · intro hne
        rw [if_neg hne]
    | error e =>
      dsimp only
      refine ⟨if f.id = id then
          { f with status := FileStatus.failed, error := "Generation failed".toList } else f,
        ?_, ?_, ?_, ?_⟩
      · have h1 := setItem_getElem id
          (fun f => { f with status := FileStatus.generating, error := [] }) s.files p hf
        have h2 := setItem_getElem id
          (fun f => { f with status := FileStatus.failed, error := "Generation failed".toList })
          _ p h1
        refine h2.trans ?_
        by_cases hid : f.id = id <;> simp [hid]
      · split <;> rfl
      · intro hid _
        rw [if_pos hid]
        rfl
      · intro hne
        rw [if_neg hne]

theorem generateForItem_counters (gen : FileItem → Except Str GenMeta)
    (snap : List FileItem) (id : Str) (s : AppState)
    (hmem : id ∈ snap.map (fun x => x.id)) :
    (generateForItem gen snap id s).generatedCount
      + (generateForItem gen snap id s).failedCount
      = s.generatedCount + s.failedCount + 1 := by
  simp only [generateForItem]
  obtain ⟨cur, hfind⟩ := find?_id_of_mem hmem
  rw [hfind]
  dsimp only
  cases gen cur with
  | ok m =>
    dsimp only
    omega
  | error e =>
    dsimp only
    omega

theorem generateForItem_mem {a : FileItem} {s : AppState} (ha : a ∈ s.files)
    (gen : FileItem → Except Str GenMeta) (snap : List FileItem) {id : Str}
    (hne : a.id ≠ id) : a ∈ (generateForItem gen snap id s).files := by
  simp only [generateForItem]
  rcases hfind : snap.find? (fun x => x.id == id) with _ | cur
  · rw [hfind]
    exact setItem_mem ha id _ hne
  · rw [hfind]
    dsimp only
    cases hgen : gen cur with
    | ok m =>
      dsimp only
      exact setItem_mem (setItem_mem ha id _ hne) id _ hne
    | error e =>
      dsimp only
      exact setItem_mem (setItem_mem ha id _ hne) id _ hne

theorem procCount_zero_of_stop {k : Option Nat} {i : Nat} (h : stopAt k i = true)
    (len : Nat) : procCount k i len = 0 := by
  cases k with
  | none => simp [stopAt] at h
  | some kk =>
    simp only [stopAt, decide_eq_true_eq] at h
    simp only [procCount]
    omega

theorem procCount_succ_of_go {k : Option Nat} {i : Nat} (h : stopAt k i = false)
    (len : Nat) : procCount k i (len + 1) = procCount k (i + 1) len + 1 := by
  cases k with
  | none => simp [procCount]
  | some kk =>
    simp only [stopAt, decide_eq_false_iff_not] at h
    simp only [procCount, Nat.min_def]
    split <;> split <;> omega

theorem procCount_nil (k : Option Nat) (i : Nat) : procCount k i 0 = 0 := by
  cases k with
  | none => rfl
  | some kk => simp [procCount]

/-- Invariant of the sequential batch loop: positions keep their ids; an
item whose id is among the processed queue prefix ends terminal, any other
item is untouched; the counters advance by exactly the number of processed
entries; files present before (or added during) the run and not named by
the queue survive unchanged. -/
theorem runQueue_spec (gen : FileItem → Except Str GenMeta) (snapshot : List FileItem)
    (added : Nat → List FileItem) (k : Option Nat) :
    ∀ (q : List FileItem), ∀ (i : Nat) (s r : AppState),
      r = (runQueue gen snapshot added k q i s).1 →
      (∀ it ∈ q, it.id ∈ snapshot.map (fun x => x.id)) →
      ((∀ (p : Nat) (f : FileItem), s.files[p]? = some f →
        ∃ f', r.files[p]? = some f' ∧ f'.id = f.id ∧
          (f.id ∈ (q.take (procCount k i q.length)).map (fun x => x.id) →
            isTerminal f'.status = true) ∧
          (f.id ∉ (q.take (procCount k i q.length)).map (fun x => x.id) → f' = f)) ∧
       (r.generatedCount + r.failedCount
         = s.generatedCount + s.failedCount + procCount k i q.length) ∧
       (∀ a ∈ s.files, a.id ∉ q.map (fun x => x.id) → a ∈ r.files) ∧
       (∀ j, j < procCount k i q.length → ∀ a ∈ added (i + j),
         a.id ∉ q.map (fun x => x.id) → a ∈ r.files)) := by
  intro q
  induction q with
  | nil =>
    intro i s r hr hq
    subst hr
    simp only [runQueue, List.length_nil, procCount_nil, List.take_nil, List.map_nil]
    refine ⟨fun p f hf => ⟨f, hf, rfl, by simp, fun _ => rfl⟩, by omega, fun a ha _ => ha,
      fun j hj => by omega⟩
  | cons it rest ih =>
    intro i s r hr hq
    by_cases hstop : stopAt k i = true
    · subst hr
      simp only [runQueue, hstop, if_true, procCount_zero_of_stop hstop, List.take_zero,
        List.map_nil]
      refine ⟨fun p f hf => ⟨f, hf, rfl, by simp, fun _ => rfl⟩, by omega, fun a ha _ => ha,
        fun j hj => by omega⟩
    · have hstop' : stopAt k i = false := by
        revert hstop
        cases stopAt k i <;> simp
      subst hr
      have hred : runQueue gen snapshot added k (it :: rest) i s =
          runQueue gen snapshot added k rest (i + 1)
            (generateForItem gen snapshot it.id { s with files := s.files ++ added i }) := by
        simp only [runQueue, hstop', Bool.false_eq_true, if_false]
      rw [hred]
      have hitid : it.id ∈ snapshot.map (fun x => x.id) := hq it (by simp)
      simp only [List.length_cons, procCount_succ_of_go hstop', List.take_succ_cons,
        List.map_cons]
      obtain ⟨ihA, ihB, ihC, ihD⟩ := ih (i + 1)
        (generateForItem gen snapshot it.id { s with files := s.files ++ added i }) _ rfl
        (fun u hu => hq u (List.mem_cons_of_mem _ hu))
      refine ⟨?_, ?_, ?_, ?_⟩
      · intro p f hf
        rcases List.getElem?_eq_some.mp hf with ⟨hplt, _⟩
        have hf1 : ({ s with files := s.files ++ added i } : AppState).files[p]? = some f := by
          show (s.files ++ added i)[p]? = some f
          rw [List.getElem?_append_left hplt]
          exact hf
        obtain ⟨f1, hf12, hid1, hterm1, hunch1⟩ :=
          generateForItem_getElem gen snapshot it.id _ p hf1
        obtain ⟨f', hf'2, hid2, hterm2, hunch2⟩ := ihA p f1 hf12
        refine ⟨f', hf'2, by rw [hid2, hid1], ?_, ?_⟩
        · intro hmem
          by_cases hrt : f.id ∈ (rest.take (procCount k (i + 1) rest.length)).map
              (fun x => x.id)
          · exact hterm2 (by rw [hid1]; exact hrt)
          · rcases List.mem_cons.mp hmem with h1 | h1
            · have hf1t := hterm1 h1 hitid
              rw [hunch2 (by rw [hid1]; exact hrt)]
              exact hf1t
            · exact absurd h1 hrt
        · intro hmem
          have hne : f.id ≠ it.id := fun h => hmem (by simp [h])
          have hrt : f.id ∉ (rest.take (procCount k (i + 1) rest.length)).map
              (fun x => x.id) := fun h => hmem (List.mem_cons_of_mem _ h)
          rw [hunch2 (by rw [hid1]; exact hrt), hunch1 hne]
      · have hc := generateForItem_counters gen snapshot it.id
          { s with files := s.files ++ added i } hitid
        have hg1 : ({ s with files := s.files ++ added i } : AppState).generatedCount
            = s.generatedCount := rfl
        have hg2 : ({ s with files := s.files ++ added i } : AppState).failedCount
            = s.failedCount := rfl
        rw [hg1, hg2] at hc
        omega
      · intro a ha hnid
        have ha1 : a ∈ ({ s with files := s.files ++ added i } : AppState).files :=
          List.mem_append_left _ ha
        have hne : a.id ≠ it.id := fun h => hnid (by simp [h])
        have ha2 := generateForItem_mem ha1 gen snapshot hne
        exact ihC a ha2 (fun h => hnid (List.mem_cons_of_mem _ h))
      · intro j hj a ha hnid
        cases j with
        | zero =>
          have ha0 : a ∈ added i := by simpa using ha
          have ha1 : a ∈ ({ s with files := s.files ++ added i } : AppState).files :=
            List.mem_append_right _ ha0
          have hne : a.id ≠ it.id := fun h => hnid (by simp [h])
          have ha2 := generateForItem_mem ha1 gen snapshot hne
          exact ihC a ha2 (fun h => hnid (List.mem_cons_of_mem _ h))
        | succ j' =>
          have hshift : i + (j' + 1) = (i + 1) + j' := by omega
          rw [hshift] at ha
          exact ihD j' (by omega) a ha (fun h => hnid (List.mem_cons_of_mem _ h))

theorem handleGenerateAll_run (gen : FileItem → Except Str GenMeta) (apiKeys : List Str)
    (added : Nat → List FileItem) (k : Option Nat) (s : AppState)
    (hkey : apiKeys.any (fun kk => !(jsTrim kk).isEmpty) = true) :
    (handleGenerateAll gen apiKeys added k s).1 =
      (runQueue gen s.files added k (pendingQueue s.files) 0
        { s with generatedCount := 0, failedCount := 0 }).1 := by
  simp only [handleGenerateAll]
  rw [hkey]
  rfl

theorem pendingQueue_ids (files : List FileItem) :
    ∀ it ∈ pendingQueue files, it.id ∈ files.map (fun x => x.id) := by
  intro it hit
  simp only [pendingQueue] at hit
  exact List.mem_map_of_mem _ (List.mem_filter.mp hit).1

/-- C3: after a batch run with cancellation never requested, every item
that was pending or failed at run start ends terminal (success or failed) at
the same position with the same id, the generated plus failed counters equal
the number of processed queue entries, and any file added mid-run whose id
is not in the work-queue snapshot is still present, untouched, at run end. -/
theorem c3_batch_run_complete (gen : FileItem → Except Str GenMeta) (apiKeys : List Str)
    (added : Nat → List FileItem) (s : AppState)
    (hkey : apiKeys.any (fun kk => !(jsTrim kk).isEmpty) = true) :
    (∀ (p : Nat) (f : FileItem), s.files[p]? = some f →
        isPendingOrFailed f.status = true →
        ∃ f', (handleGenerateAll gen apiKeys added none s).1.files[p]? = some f' ∧
          f'.id = f.id ∧ isTerminal f'.status = true) ∧
    ((handleGenerateAll gen apiKeys added none s).1.generatedCount
      + (handleGenerateAll gen apiKeys added none s).1.failedCount
      = (pendingQueue s.files).length) ∧
    (∀ j, j < (pendingQueue s.files).length → ∀ a ∈ added j,
      a.id ∉ (pendingQueue s.files).map (fun x => x.id) →
      a ∈ (handleGenerateAll gen apiKeys added none s).1.files) := by
  have hrun := handleGenerateAll_run gen apiKeys added none s hkey
  obtain ⟨hA, hB, hC, hD⟩ := runQueue_spec gen s.files added none (pendingQueue s.files) 0
    { s with generatedCount := 0, failedCount := 0 } _ rfl (pendingQueue_ids s.files)
  rw [hrun]
  have hpcn : procCount none 0 (pendingQueue s.files).length
      = (pendingQueue s.files).length := rfl
  refine ⟨?_, ?_, ?_⟩
  · intro p f hf hpend
    obtain ⟨f', hf', hid, hterm, _⟩ := hA p f hf
    refine ⟨f', hf', hid, hterm ?_⟩
    rw [hpcn, List.take_length]
    have hmemf : f ∈ s.files := List.mem_iff_getElem?.mpr ⟨p, hf⟩
    exact List.mem_map_of_mem _ (List.mem_filter.mpr ⟨hmemf, hpend⟩)
  · rw [hpcn] at hB
    simpa using hB
  · intro j hj a ha hnid
    rw [hpcn] at hD
    have := hD j hj a (by simpa using ha) hnid
    exact this

/-- C3 witness: a two-item collection, one pending and one already
successful, run with one key, a succeeding generator and no mid-run
additions. -/
theorem c3_batch_run_complete_witness :
    ((["k".toList] : List Str).any (fun kk => !(jsTrim kk).isEmpty) = true) ∧
    ((∀ (p : Nat) (f : FileItem),
        (⟨[⟨"1".toList, "a".toList, [], [], [], FileStatus.pending, []⟩,
           ⟨"2".toList, "b".toList, [], [], [], FileStatus.success, []⟩], 5, 7⟩ :
          AppState).files[p]? = some f →
        isPendingOrFailed f.status = true →
        ∃ f', (handleGenerateAll (fun _ => Except.ok ⟨"t".toList, "k".toList, "d".toList⟩)
            ["k".toList] (fun _ => []) none
            ⟨[⟨"1".toList, "a".toList, [], [], [], FileStatus.pending, []⟩,
              ⟨"2".toList, "b".toList, [], [], [], FileStatus.success, []⟩], 5, 7⟩).1.files[p]?
              = some f' ∧
          f'.id = f.id ∧ isTerminal f'.status = true) ∧
    ((handleGenerateAll (fun _ => Except.ok ⟨"t".toList, "k".toList, "d".toList⟩)
        ["k".toList] (fun _ => []) none
        ⟨[⟨"1".toList, "a".toList, [], [], [], FileStatus.pending, []⟩,
          ⟨"2".toList, "b".toList, [], [], [], FileStatus.success, []⟩], 5, 7⟩).1.generatedCount
      + (handleGenerateAll (fun _ => Except.ok ⟨"t".toList, "k".toList, "d".toList⟩)
        ["k".toList] (fun _ => []) none
        ⟨[⟨"1".toList, "a".toList, [], [], [], FileStatus.pending, []⟩,
          ⟨"2".toList, "b".toList, [], [], [], FileStatus.success, []⟩], 5, 7⟩).1.failedCount
      = (pendingQueue [⟨"1".toList, "a".toList, [], [], [], FileStatus.pending, []⟩,
          ⟨"2".toList, "b".toList, [], [], [], FileStatus.success, []⟩]).length) ∧
    (∀ j, j < (pendingQueue [⟨"1".toList, "a".toList, [], [], [], FileStatus.pending, []⟩,
          ⟨"2".toList, "b".toList, [], [], [], FileStatus.success, []⟩]).length →
      ∀ a ∈ (fun (_ : Nat) => ([] : List FileItem)) j,
      a.id ∉ (pendingQueue [⟨"1".toList, "a".toList, [], [], [], FileStatus.pending, []⟩,
          ⟨"2".toList, "b".toList, [], [], [], FileStatus.success, []⟩]).map (fun x => x.id) →
      a ∈ (handleGenerateAll (fun _ => Except.ok ⟨"t".toList, "k".toList, "d".toList⟩)
        ["k".toList] (fun _ => []) none
        ⟨[⟨"1".toList, "a".toList, [], [], [], FileStatus.pending, []⟩,
          ⟨"2".toList, "b".toList, [], [], [], FileStatus.success, []⟩], 5, 7⟩).1.files)) :=
  ⟨by decide,
    c3_batch_run_complete (fun _ => Except.ok ⟨"t".toList, "k".toList, "d".toList⟩)
      ["k".toList] (fun _ => [])
      ⟨[⟨"1".toList, "a".toList, [], [], [], FileStatus.pending, []⟩,
        ⟨"2".toList, "b".toList, [], [], [], FileStatus.success, []⟩], 5, 7⟩
      (by decide)⟩

/-- C4: in a batch run where the stop flag first reads true at queue index
`k`, every file whose id is named by one of the first `k` queue entries
(whose processing started before the stop) reaches a terminal state, and
every other file — queue entries not yet started included — is completely
unchanged, keeping its prior status and fields. -/
theorem c4_stop_flag_halts (gen : FileItem → Except Str GenMeta) (apiKeys : List Str)
    (added : Nat → List FileItem) (s : AppState) (k : Nat)
    (hkey : apiKeys.any (fun kk => !(jsTrim kk).isEmpty) = true) :
    ∀ (p : Nat) (f : FileItem), s.files[p]? = some f →
      ∃ f', (handleGenerateAll gen apiKeys added (some k) s).1.files[p]? = some f' ∧
        f'.id = f.id ∧
        (f.id ∈ ((pendingQueue s.files).take k).map (fun x => x.id) →
          isTerminal f'.status = true) ∧
        (f.id ∉ ((pendingQueue s.files).take k).map (fun x => x.id) → f' = f) := by
  have hrun := handleGenerateAll_run gen apiKeys added (some k) s hkey
  obtain ⟨hA, _, _, _⟩ := runQueue_spec gen s.files added (some k) (pendingQueue s.files) 0
    { s with generatedCount := 0, failedCount := 0 } _ rfl (pendingQueue_ids s.files)
  rw [hrun]
  have htake : (pendingQueue s.files).take
      (procCount (some k) 0 (pendingQueue s.files).length) = (pendingQueue s.files).take k := by
    rw [List.take_eq_take]
    simp only [procCount, Nat.sub_zero]
    omega
  intro p f hf
  obtain ⟨f', hf', hid, hterm, hunch⟩ := hA p f hf
  rw [htake] at hterm hunch
  exact ⟨f', hf', hid, hterm, hunch⟩

/-- C4 witness: a two-pending-item collection with the stop flag set after
the first item: item one is processed, item two stays untouched. -/
theorem c4_stop_flag_halts_witness :
    ((["k".toList] : List Str).any (fun kk => !(jsTrim kk).isEmpty) = true) ∧
    ((⟨[⟨"1".toList, "a".toList, [], [], [], FileStatus.pending, []⟩,
        ⟨"2".toList, "b".toList, [], [], [], FileStatus.pending, []⟩], 0, 0⟩ :
        AppState).files[1]? = some ⟨"2".toList, "b".toList, [], [], [], FileStatus.pending, []⟩) ∧
    (∃ f', (handleGenerateAll (fun _ => Except.ok ⟨"t".toList, "k".toList, "d".toList⟩)
        ["k".toList] (fun _ => []) (some 1)
        ⟨[⟨"1".toList, "a".toList, [], [], [], FileStatus.pending, []⟩,
          ⟨"2".toList, "b".toList, [], [], [], FileStatus.pending, []⟩], 0, 0⟩).1.files[1]?
          = some f' ∧
      f'.id = (⟨"2".toList, "b".toList, [], [], [], FileStatus.pending, []⟩ : FileItem).id ∧
      ((⟨"2".toList, "b".toList, [], [], [], FileStatus.pending, []⟩ : FileItem).id ∈
        ((pendingQueue [⟨"1".toList, "a".toList, [], [], [], FileStatus.pending, []⟩,
          ⟨"2".toList, "b".toList, [], [], [], FileStatus.pending, []⟩]).take 1).map
            (fun x => x.id) →
        isTerminal f'.status = true) ∧
      ((⟨"2".toList, "b".toList, [], [], [], FileStatus.pending, []⟩ : FileItem).id ∉
        ((pendingQueue [⟨"1".toList, "a".toList, [], [], [], FileStatus.pending, []⟩,
          ⟨"2".toList, "b".toList, [], [], [], FileStatus.pending, []⟩]).take 1).map
            (fun x => x.id) →
        f' = ⟨"2".toList, "b".toList, [], [], [], FileStatus.pending, []⟩)) :=
  ⟨by decide, by decide,
    c4_stop_flag_halts (fun _ => Except.ok ⟨"t".toList, "k".toList, "d".toList⟩)
      ["k".toList] (fun _ => [])
      ⟨[⟨"1".toList, "a".toList, [], [], [], FileStatus.pending, []⟩,
        ⟨"2".toList, "b".toList, [], [], [], FileStatus.pending, []⟩], 0, 0⟩ 1
      (by decide) 1 ⟨"2".toList, "b".toList, [], [], [], FileStatus.pending, []⟩ (by decide)⟩

/-! CSV round-trip lemmas. -/

theorem mem_escQuote {c : Char} : ∀ {v : Str}, c ∈ escQuote v → c ∈ v
  | [], h => by simp [escQuote] at h
  | c0 :: cs, h => by
    rw [escQuote.eq_def] at h
    split at h
    · rename_i heq
      cases heq
    · rename_i cs2 heq
      injection heq with h1 h2
      subst h2
      rcases List.mem_cons.mp h with h3 | h3
      · simp [h1, h3]
      · rcases List.mem_cons.mp h3 with h4 | h4
        · simp [h1, h4]
        · exact List.mem_cons_of_mem _ (mem_escQuote h4)
    · rename_i c2 cs2 heq
      injection heq with h1 h2
      subst h1
      subst h2
      rcases List.mem_cons.mp h with h3 | h3
      · simp [h3]
      · exact List.mem_cons_of_mem _ (mem_escQuote h3)

theorem nlToSpace_eq_self : ∀ {s : Str}, (∀ c ∈ s, c ≠ '\n') → nlToSpace s = s
  | [], _ => rfl
  | c :: cs, h => by
    have hc : c ≠ '\n' := h c (by simp)
    have ih := nlToSpace_eq_self (s := cs) (fun d hd => h d (List.mem_cons_of_mem _ hd))
    rw [nlToSpace.eq_def]
    split
    · rename_i heq
      cases heq
    · rename_i cs2 heq
      injection heq with h1 h2
      have : ('\n' : Char) ∈ c :: cs := by rw [h2]; simp
      exact absurd rfl (h '\n' this)
    · rename_i cs2 heq
      injection heq with h1 h2
      exact absurd h1 hc
    · rename_i c2 cs2 heq
      injection heq with h1 h2
      subst h1
      subst h2
      rw [ih]

theorem escQuote_cons_ne {c : Char} (hc : c ≠ '"') (cs : Str) :
    escQuote (c :: cs) = c :: escQuote cs := by
  rw [escQuote.eq_def]
  split
  · rename_i heq
    cases heq
  · rename_i cs2 heq
    injection heq with h1 h2
    exact absurd h1 hc
  · rename_i c2 cs2 heq
    injection heq with h1 h2
    subst h1
    subst h2
    rfl

theorem csvGo_outside_quote (cur : Str) (curRec : List Str) (recs : List (List Str)) (X : Str) :
    csvGo CsvSt.outside cur curRec recs ('"' :: X) = csvGo CsvSt.inQ [] curRec recs X := by
  rw [csvGo.eq_def]
  simp

theorem csvGo_inQ_quote (cur : Str) (curRec : List Str) (recs : List (List Str)) (X : Str) :
    csvGo CsvSt.inQ cur curRec recs ('"' :: X) = csvGo CsvSt.afterQ cur curRec recs X := by
  rw [csvGo.eq_def]
  simp

theorem csvGo_inQ_other {c : Char} (hc : c ≠ '"') (cur : Str) (curRec : List Str)
    (recs : List (List Str)) (X : Str) :
    csvGo CsvSt.inQ cur curRec recs (c :: X) = csvGo CsvSt.inQ (c :: cur) curRec recs X := by
  rw [csvGo.eq_def]
  simp [hc]

theorem csvGo_afterQ_quote (cur : Str) (curRec : List Str) (recs : List (List Str)) (X : Str) :
    csvGo CsvSt.afterQ cur curRec recs ('"' :: X)
      = csvGo CsvSt.inQ ('"' :: cur) curRec recs X := by
  rw [csvGo.eq_def]
  simp

theorem csvGo_afterQ_comma (cur : Str) (curRec : List Str) (recs : List (List Str)) (X : Str) :
    csvGo CsvSt.afterQ cur curRec recs (',' :: X)
      = csvGo CsvSt.outside [] (cur.reverse :: curRec) recs X := by
  rw [csvGo.eq_def]
  simp

theorem csvGo_afterQ_crlf (cur : Str) (curRec : List Str) (recs : List (List Str)) (X : Str) :
    csvGo CsvSt.afterQ cur curRec recs ('\r' :: '\n' :: X)
      = csvGo CsvSt.outside [] [] ((cur.reverse :: curRec).reverse :: recs) X := by
  rw [csvGo.eq_def]
  simp

theorem csvGo_outside_nil (cur : Str) (recs : List (List Str)) :
    csvGo CsvSt.outside cur [] recs [] = some recs.reverse := by
  rw [csvGo.eq_def]
  simp

theorem csvGo_field : ∀ (v : Str) (cur : Str) (curRec : List Str)
    (recs : List (List Str)) (rest : Str),
    csvGo CsvSt.inQ cur curRec recs (escQuote v ++ '"' :: rest)
      = csvGo CsvSt.afterQ (v.reverse ++ cur) curRec recs rest
  | [], cur, curRec, recs, rest => by
    show csvGo CsvSt.inQ cur curRec recs ('"' :: rest) = _
    rw [csvGo_inQ_quote]
    simp
  | c :: v', cur, curRec, recs, rest => by
    by_cases hc : c = '"'
    · subst hc
      show csvGo CsvSt.inQ cur curRec recs
          ('"' :: ('"' :: (escQuote v' ++ '"' :: rest))) = _
      rw [csvGo_inQ_quote, csvGo_afterQ_quote, csvGo_field v' ('"' :: cur) curRec recs rest]
      congr 1
      simp
    · rw [escQuote_cons_ne hc]
      show csvGo CsvSt.inQ cur curRec recs (c :: (escQuote v' ++ '"' :: rest)) = _
      rw [csvGo_inQ_other hc, csvGo_field v' (c :: cur) curRec recs rest]
      congr 1
      simp

theorem csvGo_line : ∀ (fs : List Str), fs ≠ [] →
    (∀ f ∈ fs, ∀ c ∈ f, c ≠ '\n') →
    ∀ (curRec : List Str) (recs : List (List Str)) (rest : Str),
      csvGo CsvSt.outside [] curRec recs (csvLine fs ++ '\r' :: '\n' :: rest)
        = csvGo CsvSt.outside [] [] ((curRec.reverse ++ fs) :: recs) rest
  | [], hne, _ => absurd rfl hne
  | [f], _, hnl => by
    intro curRec recs rest
    have hesc : nlToSpace (escQuote f) = escQuote f :=
      nlToSpace_eq_self (fun c hc => hnl f (by simp) c (mem_escQuote hc))
    have hline : csvLine [f] ++ '\r' :: '\n' :: rest
        = '"' :: (escQuote f ++ '"' :: ('\r' :: '\n' :: rest)) := by
      simp [csvLine, joinSep, csvField, hesc]
    rw [hline, csvGo_outside_quote, csvGo_field f [] curRec recs, csvGo_afterQ_crlf]
    rw [show (((f.reverse ++ [] : Str)).reverse :: curRec).reverse :: recs
        = (curRec.reverse ++ [f]) :: recs from by simp]
  | f :: f1 :: fs', _, hnl => by
    intro curRec recs rest
    have hesc : nlToSpace (escQuote f) = escQuote f :=
      nlToSpace_eq_self (fun c hc => hnl f (by simp) c (mem_escQuote hc))
    have hline : csvLine (f :: f1 :: fs') ++ '\r' :: '\n' :: rest
        = '"' :: (escQuote f ++ '"' ::
            (',' :: (csvLine (f1 :: fs') ++ '\r' :: '\n' :: rest))) := by
      simp only [csvLine, List.map_cons]
      rw [joinSep_cons _ _ (by simp)]
      simp [csvField, hesc, List.append_assoc]
    rw [hline, csvGo_outside_quote, csvGo_field f [] curRec recs, csvGo_afterQ_comma]
    rw [show ((f.reverse ++ [] : Str)).reverse = f from by simp]
    rw [csvGo_line (f1 :: fs') (by simp)
      (fun u hu => hnl u (List.mem_cons_of_mem _ hu)) (f :: curRec) recs rest]
    rw [show ((f :: curRec).reverse ++ (f1 :: fs')) :: recs
        = (curRec.reverse ++ (f :: f1 :: fs')) :: recs from by simp]

theorem csvGo_rows : ∀ (rows : List (List Str)), rows ≠ [] →
    (∀ r ∈ rows, r ≠ [] ∧ ∀ f ∈ r, ∀ c ∈ f, c ≠ '\n') →
    ∀ (recs : List (List Str)),
      csvGo CsvSt.outside [] [] recs
        (joinSep ['\r', '\n'] (rows.map csvLine) ++ ['\r', '\n'])
        = some (recs.reverse ++ rows)
  | [], hne, _ => absurd rfl hne
  | [r], _, hr => by
    intro recs
    obtain ⟨hrne, hrnl⟩ := hr r (by simp)
    have hsh : joinSep ['\r', '\n'] ([r].map csvLine) ++ ['\r', '\n']
        = csvLine r ++ '\r' :: '\n' :: [] := by
      simp [joinSep]
    rw [hsh, csvGo_line r hrne hrnl [] recs [], csvGo_outside_nil]
    simp
  | r :: r1 :: rs, _, hr => by
    intro recs
    obtain ⟨hrne, hrnl⟩ := hr r (by simp)
    have hsh : joinSep ['\r', '\n'] ((r :: r1 :: rs).map csvLine) ++ ['\r', '\n']
        = csvLine r ++ '\r' :: '\n' ::
            (joinSep ['\r', '\n'] ((r1 :: rs).map csvLine) ++ ['\r', '\n']) := by
      simp only [List.map_cons]
      rw [joinSep_cons _ _ (by simp)]
      simp [List.append_assoc]
    rw [hsh, csvGo_line r hrne hrnl [] recs _]
    rw [show (([] : List Str).reverse ++ r) :: recs = r :: recs from by simp]
    rw [csvGo_rows (r1 :: rs) (by simp) (fun u hu => hr u (List.mem_cons_of_mem _ hu)) (r :: recs)]
    simp

/-- C8 counterexample: a title containing a newline is collapsed to a space
by the export quoting, so re-parsing does not return the original tuple. -/
theorem c8_newline_not_roundtripped :
    csvParse (buildCsv "adobe".toList
      [⟨"1".toList, "a".toList, "x\ny".toList, [], [], FileStatus.pending, []⟩])
      ≠ some (csvHeader ::
        [(⟨"1".toList, "a".toList, "x\ny".toList, [], [], FileStatus.pending, []⟩ : FileItem)].map
          (rowOf "adobe".toList)) := by
  decide

/-- C8 (amended): for every item list and platform string whose fields
contain no line feed, exporting with `buildCsv` and re-parsing with the
spec's quoted-CSV reader yields exactly the header row followed by the
original filename/title/keywords/description/platform tuple of every row,
with quote-escaping reversed. -/
theorem c8_csv_round_trip (platform : Str) (items : List FileItem)
    (hplat : ∀ c ∈ platform, c ≠ '\n')
    (hitems : ∀ f ∈ items, (∀ c ∈ f.name, c ≠ '\n') ∧ (∀ c ∈ f.title, c ≠ '\n') ∧
      (∀ c ∈ f.keywords, c ≠ '\n') ∧ (∀ c ∈ f.description, c ≠ '\n')) :
    csvParse (buildCsv platform items) = some (csvHeader :: items.map (rowOf platform)) := by
  unfold csvParse buildCsv
  refine (csvGo_rows (csvHeader :: items.map (rowOf platform)) (by simp) ?_ []).trans (by simp)
  intro r hr
  rcases List.mem_cons.mp hr with h1 | h1
  · subst h1
    exact ⟨by decide, by decide⟩
  · obtain ⟨f, hf, rfl⟩ := List.mem_map.mp h1
    obtain ⟨hn1, hn2, hn3, hn4⟩ := hitems f hf
    refine ⟨by simp [rowOf], ?_⟩
    intro u hu
    simp only [rowOf, List.mem_cons, List.not_mem_nil, or_false] at hu
    rcases hu with h | h | h | h | h
    · exact h ▸ hn1
    · exact h ▸ hn2
    · exact h ▸ hn3
    · exact h ▸ hn4
    · exact h ▸ hplat

/-- C8 witness: the amended round trip at a concrete one-item list. -/
theorem c8_csv_round_trip_witness :
    (∀ c ∈ ("adobe".toList : Str), c ≠ '\n') ∧
    (∀ f ∈ [(⟨"1".toList, "a b".toList, "Ti\"tle".toList, "k1, k2".toList, "d".toList,
        FileStatus.success, []⟩ : FileItem)],
      (∀ c ∈ f.name, c ≠ '\n') ∧ (∀ c ∈ f.title, c ≠ '\n') ∧
      (∀ c ∈ f.keywords, c ≠ '\n') ∧ (∀ c ∈ f.description, c ≠ '\n')) ∧
    csvParse (buildCsv "adobe".toList
      [⟨"1".toList, "a b".toList, "Ti\"tle".toList, "k1, k2".toList, "d".toList,
        FileStatus.success, []⟩])
      = some (csvHeader ::
        [(⟨"1".toList, "a b".toList, "Ti\"tle".toList, "k1, k2".toList, "d".toList,
          FileStatus.success, []⟩ : FileItem)].map (rowOf "adobe".toList)) :=
  ⟨by decide, by decide,
    c8_csv_round_trip "adobe".toList
      [⟨"1".toList, "a b".toList, "Ti\"tle".toList, "k1, k2".toList, "d".toList,
        FileStatus.success, []⟩] (by decide) (by decide)⟩
